import Mathlib

/-!
# Character dump (`chardump.cc`): text layout and section dispatch

A shallow embedding of two pieces of `crawl-ref/source/chardump.cc`:

* `munge_description`, the routine that turns `$` into line breaks and wraps
  item descriptions;
* `dump_handlers` / `dump_section` / `dump_char`, the table-driven dispatch of
  the sections of a character dump.

A `std::string` is a `List Char`.  The position `i` inside `inStr` is kept as
the suffix of `inStr` that starts at `i`: `inStr[i]` is the head of that suffix,
`i < inStr.length()` says that it is not empty, `++i` drops its head.  The
counter `lineLen` stays between 3 and 79, so the `int` and `size_t` arithmetic
of the source is arithmetic on `Nat`.

The main loop runs on fuel, one unit for each pass; `munge_description` gives it
`2 * inStr.length() + 1` passes, and `munge_description_loop_exits` shows that
the loop has left through its own test by then.

The handlers of the dump whose text comes from the game (`sdump_stats`,
`sdump_inventory`, ...) and the Lua interpreter are parameters, gathered in
`Env`; `sdump_newline`, `sdump_separator`, `sdump_lua` and `sdump_misc` follow
the source.
-/

namespace Chardump

/-! ## Definitions: `munge_description` -/

/-- `const int kIndent = 3;` -/
def kIndent : Nat := 3

/-- `std::string eol = "\n";` -/
def eol : List Char := ['\n']

/-- `std::string(kIndent, ' ')` -/
def indent : List Char := List.replicate kIndent ' '

/-- `isspace` of `<ctype.h>` in the "C" locale: space, `\t`, `\n`, `\v`, `\f`, `\r`. -/
def isspace (c : Char) : Bool :=
  c = ' ' || c = '\t' || c = '\n' || c = '\x0b' || c = '\x0c' || c = '\r'

/-- The variables of `munge_description` that change in its main loop:
`rest` is `inStr` from index `i` on, then `lineLen` and `outStr`. -/
structure MungeState where
  rest : List Char
  lineLen : Nat
  outStr : List Char
deriving DecidableEq, Repr

/-- The empty-bodied loop `while (inStr[++i] == '$');`, entered on the suffix that
follows the `$` just read.  At the end of the string `inStr[inStr.length()]` is
`'\0'`, which is not `$`, so the loop stops there. -/
def skipDollars : List Char → List Char
  | [] => []
  | c :: tl => if c = '$' then skipDollars tl else c :: tl

/-- The word loop
`while (i < inStr.length() && lineLen + word.length() < 79
        && !isspace(inStr[i]) && inStr[i] != '$') word += inStr[i++];`
returning `word` and what is left of the input. -/
def gatherWord (lineLen : Nat) : List Char → List Char → List Char × List Char
  | [], word => (word, [])
  | c :: tl, word =>
    if lineLen + word.length < 79 ∧ isspace c = false ∧ c ≠ '$' then
      gatherWord lineLen tl (word ++ [c])
    else
      (word, c :: tl)

/-- One pass through the body of `while (i < inStr.length())`. -/
def pass (st : MungeState) : MungeState :=
  match st.rest with
  | [] => st
  | ch :: tl =>
    if ch = '$' then
      { rest := skipDollars tl, lineLen := kIndent, outStr := st.outStr ++ eol ++ indent }
    else if isspace ch then
      if st.lineLen ≥ 79 then
        { rest := tl, lineLen := kIndent, outStr := st.outStr ++ eol ++ indent }
      else if st.lineLen > 0 then
        { rest := tl, lineLen := st.lineLen + 1, outStr := st.outStr ++ [ch] }
      else
        { rest := tl, lineLen := st.lineLen, outStr := st.outStr }
    else
      let g := gatherWord st.lineLen (ch :: tl) []
      if st.lineLen + g.1.length ≥ 79 then
        { rest := g.2, lineLen := kIndent + g.1.length,
          outStr := st.outStr ++ eol ++ indent ++ g.1 }
      else
        { rest := g.2, lineLen := st.lineLen + g.1.length, outStr := st.outStr ++ g.1 }

/-- The loop `while (i < inStr.length()) { ... }`, at most `fuel` passes. -/
def mungeLoop : Nat → MungeState → MungeState
  | 0, st => st
  | fuel + 1, st => if st.rest = [] then st else mungeLoop fuel (pass st)

/-- A bound on the passes still to come: a pass that consumes no character
happens only on a full line and empties it. -/
def passBound (st : MungeState) : Nat :=
  2 * st.rest.length + (if 79 ≤ st.lineLen then 1 else 0)

/-- `std::string munge_description(const std::string & inStr)` -/
def munge_description (inStr : List Char) : List Char :=
  (mungeLoop (2 * inStr.length + 1)
    { rest := inStr, lineLen := kIndent, outStr := indent }).outStr ++ eol

/-- The text that the main loop appends to `outStr` when it is entered with
`rest` still to read and the counter at `lineLen`. -/
def emitted (rest : List Char) (lineLen : Nat) : List Char :=
  (mungeLoop (2 * rest.length + 1) { rest := rest, lineLen := lineLen, outStr := [] }).outStr

/-- The physical lines of a text: the pieces between line breaks (a text that
ends in a line break has an empty last piece). -/
def physLines (s : List Char) : List (List Char) :=
  s.splitOn '\n'

/-- All lines of `t` are at most `n` long, when `t` continues a line that
already holds `cur` characters. -/
def linesLe (n : Nat) : Nat → List Char → Prop
  | cur, [] => cur ≤ n
  | cur, c :: t => if c = '\n' then cur ≤ n ∧ linesLe n 0 t else linesLe n (cur + 1) t

/-- The value of `lineLen` when the loop has read all of `rest`. -/
def lineLenAfter (rest : List Char) (lineLen : Nat) : Nat :=
  (mungeLoop (2 * rest.length + 1) { rest := rest, lineLen := lineLen, outStr := [] }).lineLen

/-- The word `w`, read after `pre` and before `post`, is written in one piece:
either right behind the text that `pre` alone gives (its final newline left
out), or at the start of a fresh line after that text; `rest` is what follows. -/
def wordUnbroken (pre w post : List Char) : Prop :=
  ∃ rest : List Char,
    munge_description (pre ++ w ++ post) = (munge_description pre).dropLast ++ w ++ rest ∨
    munge_description (pre ++ w ++ post) = munge_description pre ++ indent ++ w ++ rest

/-- A character that the word loop takes: `!isspace(c) && c != '$'`. -/
def isWordChar (c : Char) : Bool :=
  !isspace c && c != '$'

/-- `inStr[pos]` on a `const std::string`: the character at `pos` below the
length, `'\0'` at `pos == inStr.length()`, nothing defined beyond that. -/
def charAt (inStr : List Char) (pos : Nat) : Option Char :=
  if pos < inStr.length then inStr[pos]?
  else if pos = inStr.length then some '\x00'
  else none

/-- The loop `while (inStr[++i] == '$');` on the index `i` itself, with at most
`fuel` reads of `inStr`: the value of `i` when the loop is left.  It is `none`
when a read falls outside the string, or when the reads are used up. -/
def lookAhead (inStr : List Char) : Nat → Nat → Option Nat
  | 0, _ => none
  | fuel + 1, i =>
    match charAt inStr (i + 1) with
    | none => none
    | some c => if c = '$' then lookAhead inStr fuel (i + 1) else some (i + 1)

/-- The text `o` with each line break replaced by `$`. -/
def dollarize (o : List Char) : List Char :=
  o.map (fun c => if c = '\n' then '$' else c)

/-- A line without the spaces at its start. -/
def stripIndent (line : List Char) : List Char :=
  line.dropWhile (fun c => c = ' ')

/-! ## Definitions: the section table and its dispatch -/

/-- The functions that an entry of `dump_handlers` can point to. -/
inductive Handler
  | sdump_header | sdump_stats | sdump_location | sdump_religion | sdump_burden
  | sdump_hunger | sdump_transform | sdump_misc | sdump_notes | sdump_inventory
  | sdump_skills | sdump_spells | sdump_mutations | sdump_messages | sdump_screenshot
  | sdump_kills | sdump_overview | sdump_newline | sdump_separator | sdump_lua
deriving DecidableEq, Repr

/-- `struct dump_section_handler`: `none` stands for a `NULL` pointer. -/
structure dump_section_handler where
  name : Option String
  handler : Option Handler
deriving DecidableEq, Repr

/-- The part of `scorefile_entry` that this file reads. -/
structure scorefile_entry where
  points : Int
deriving DecidableEq, Repr

/-- `struct dump_params`; the field `section` is `section_name` here, and `se` is
`none` for `NULL`. -/
structure dump_params where
  text : List Char
  section_name : String
  show_prices : Bool
  full_id : Bool
  se : Option scorefile_entry
deriving DecidableEq, Repr

/-- What one call `clua.callfn(name, ">s", &luatext)` leaves behind: its return
value, `luatext` and `clua.error`. -/
structure LuaCall where
  ok : Bool
  luatext : List Char
  error : List Char
deriving DecidableEq, Repr

/-- The collaborators of the dump, over a state `W` of the game and of the Lua
interpreter.  `ext h w par` is the text that handler `h` (one whose body only
appends text obtained from the game) adds to `par.text`, with the state after it;
`callfn` is `clua.callfn`. -/
structure Env (W : Type) where
  ext : Handler → W → dump_params → List Char × W
  callfn : W → String → LuaCall × W

/-- The state of a dump in progress.  `calls` is a ghost record of the calls
`(*dump_handlers[i].handler)(par)` made so far: which function, and the value
of `par.section` when it was called. -/
structure DumpState (W : Type) where
  world : W
  par : dump_params
  calls : List (Handler × String)

/-- `static dump_section_handler dump_handlers[]`; the last entry depends on
`#ifdef CLUA_BINDINGS`. -/
def dump_handlers (clua_bindings : Bool) : List dump_section_handler :=
  [ { name := some "header",     handler := some .sdump_header },
    { name := some "stats",      handler := some .sdump_stats },
    { name := some "location",   handler := some .sdump_location },
    { name := some "religion",   handler := some .sdump_religion },
    { name := some "burden",     handler := some .sdump_burden },
    { name := some "hunger",     handler := some .sdump_hunger },
    { name := some "transform",  handler := some .sdump_transform },
    { name := some "misc",       handler := some .sdump_misc },
    { name := some "notes",      handler := some .sdump_notes },
    { name := some "inventory",  handler := some .sdump_inventory },
    { name := some "skills",     handler := some .sdump_skills },
    { name := some "spells",     handler := some .sdump_spells },
    { name := some "mutations",  handler := some .sdump_mutations },
    { name := some "messages",   handler := some .sdump_messages },
    { name := some "screenshot", handler := some .sdump_screenshot },
    { name := some "kills",      handler := some .sdump_kills },
    { name := some "overview",   handler := some .sdump_overview },
    { name := some "",           handler := some .sdump_newline },
    { name := some "-",          handler := some .sdump_separator },
    { name := none,
      handler := if clua_bindings then some .sdump_lua else none } ]

/-- The 19 names of `dump_handlers`, in table order. -/
def static_names : List String :=
  ["header", "stats", "location", "religion", "burden", "hunger", "transform", "misc",
   "notes", "inventory", "skills", "spells", "mutations", "messages", "screenshot",
   "kills", "overview", "", "-"]

/-- The scan `for (int i = 0; ; ++i)` of `dump_section` over the entries from
index `i` on: the index at which it breaks and the `handler` field found there.
The loop has no bound of its own; `none` stands for a scan that leaves the
table. -/
def dump_section_scan : List dump_section_handler → String → Nat → Option (Nat × Option Handler)
  | [], _, _ => none
  | e :: tl, sec, i =>
    if e.name = none ∨ e.name = some sec then some (i, e.handler)
    else dump_section_scan tl sec (i + 1)

/-- `par.text += s` -/
def appendText (par : dump_params) (s : List Char) : dump_params :=
  { par with text := par.text ++ s }

/-- `static void sdump_newline(dump_params &par)` -/
def sdump_newline (par : dump_params) : dump_params :=
  appendText par ['\n']

/-- `static void sdump_separator(dump_params &par)` -/
def sdump_separator (par : dump_params) : dump_params :=
  appendText par (List.replicate 79 '-' ++ ['\n'])

/-- `static void sdump_lua(dump_params &par)` -/
def sdump_lua {W : Type} (env : Env W) (w : W) (par : dump_params) : dump_params × W :=
  let r := env.callfn w par.section_name
  if r.1.ok = false ∧ r.1.error ≠ [] then
    (appendText par ("Lua dump error: ".toList ++ r.1.error ++ ['\n']), r.2)
  else
    (appendText par r.1.luatext, r.2)

/-- A handler whose text comes from the game. -/
def sdump_ext {W : Type} (env : Env W) (h : Handler) (w : W) (par : dump_params) :
    dump_params × W :=
  let r := env.ext h w par
  (appendText par r.1, r.2)

/-- `static void sdump_misc(dump_params &par)`: five handlers in a row. -/
def sdump_misc {W : Type} (env : Env W) (w : W) (par : dump_params) : dump_params × W :=
  let r1 := sdump_ext env .sdump_location w par
  let r2 := sdump_ext env .sdump_religion r1.2 r1.1
  let r3 := sdump_ext env .sdump_burden r2.2 r2.1
  let r4 := sdump_ext env .sdump_hunger r3.2 r3.1
  sdump_ext env .sdump_transform r4.2 r4.1

/-- The body of the function that a `Handler` names. -/
def run_handler {W : Type} (env : Env W) (h : Handler) (w : W) (par : dump_params) :
    dump_params × W :=
  match h with
  | .sdump_newline => (sdump_newline par, w)
  | .sdump_separator => (sdump_separator par, w)
  | .sdump_lua => sdump_lua env w par
  | .sdump_misc => sdump_misc env w par
  | h => sdump_ext env h w par

/-- The call `(*dump_handlers[i].handler)(par)`, recorded in `calls`. -/
def call_handler {W : Type} (env : Env W) (h : Handler) (st : DumpState W) : DumpState W :=
  let r := run_handler env h st.world st.par
  { world := r.2, par := r.1, calls := st.calls ++ [(h, st.par.section_name)] }

/-- `static void dump_section(dump_params &par)` -/
def dump_section {W : Type} (env : Env W) (clua_bindings : Bool) (st : DumpState W) :
    DumpState W :=
  match dump_section_scan (dump_handlers clua_bindings) st.par.section_name 0 with
  | some (_, some h) => call_handler env h st
  | some (_, none) => st
  | none => st

/-- The loop of `dump_char` over `Options.dump_order`:
`par.section = Options.dump_order[i]; dump_section(par);` -/
def dump_char_loop {W : Type} (env : Env W) (clua_bindings : Bool) :
    List String → DumpState W → DumpState W
  | [], st => st
  | name :: order, st =>
    dump_char_loop env clua_bindings order
      (dump_section env clua_bindings
        { st with par := { st.par with section_name := name } })

/-- `dump_char` up to the call of `write_dump`: the state whose `par.text` is
written to the file. -/
def dump_char {W : Type} (env : Env W) (clua_bindings : Bool) (w : W)
    (dump_order : List String) (show_prices full_id : Bool) (se : Option scorefile_entry) :
    DumpState W :=
  dump_char_loop env clua_bindings dump_order
    { world := w,
      par := { text := [], section_name := "", show_prices := show_prices,
               full_id := full_id, se := se },
      calls := [] }

/-- The text that the sections `""` and `"-"` add to a dump. -/
def rulePiece (name : String) : List Char :=
  if name = "" then ['\n'] else List.replicate 79 '-' ++ ['\n']

/-- Sample collaborators: every game handler adds its section name in brackets,
and `callfn` fails for every name, with the error message `boom`. -/
def sampleEnvError : Env Unit where
  ext := fun _ _ par => (['['] ++ par.section_name.toList ++ [']'], ())
  callfn := fun _ _ => ({ ok := false, luatext := [], error := "boom".toList }, ())

/-- Sample collaborators, as `sampleEnvError`, but `callfn` fails without an
error message, as it does for a name that is no Lua function. -/
def sampleEnvSilent : Env Unit where
  ext := fun _ _ par => (['['] ++ par.section_name.toList ++ [']'], ())
  callfn := fun _ _ => ({ ok := false, luatext := [], error := [] }, ())

/-- A dump in progress, about to dispatch the section `name`. -/
def sampleState (text : List Char) (name : String) : DumpState Unit :=
  { world := (),
    par := { text := text, section_name := name, show_prices := false, full_id := true,
             se := none },
    calls := [] }

/-! ## The loop of `munge_description`: basic facts -/

theorem skipDollars_length_le (l : List Char) : (skipDollars l).length ≤ l.length := by
  induction l with
  | nil => simp [skipDollars]
  | cons c tl ih =>
    simp only [skipDollars]
    split
    · simp only [List.length_cons]; omega
    · exact le_refl _

theorem skipDollars_eq_dropWhile (l : List Char) :
    skipDollars l = l.dropWhile (fun c => c = '$') := by
  induction l with
  | nil => rfl
  | cons c tl ih =>
    by_cases h : c = '$'
    · simp [skipDollars, h, ih]
    · simp [skipDollars, h]

theorem gatherWord_closed (l : Nat) (rest word : List Char) :
    gatherWord l rest word =
      (word ++ (rest.takeWhile isWordChar).take (79 - (l + word.length)),
       rest.drop (min (79 - (l + word.length)) (rest.takeWhile isWordChar).length)) := by
  induction rest generalizing word with
  | nil => simp [gatherWord]
  | cons c tl ih =>
    simp only [gatherWord]
    by_cases hw : isWordChar c = true
    · have hw2 : isspace c = false ∧ c ≠ '$' := by
        simpa [isWordChar] using hw
      by_cases hl : l + word.length < 79
      · rw [if_pos ⟨hl, hw2⟩, ih]
        have e : 79 - (l + word.length) = (79 - (l + (word.length + 1))) + 1 := by omega
        simp only [List.length_append, List.length_singleton, List.takeWhile_cons, hw, if_true,
          List.length_cons]
        rw [e]
        simp [List.take_succ_cons, Nat.succ_min_succ]
      · rw [if_neg (fun h => hl h.1)]
        have e : 79 - (l + word.length) = 0 := by omega
        simp [e]
    · have hw2 : ¬ (isspace c = false ∧ c ≠ '$') := by
        simpa [isWordChar] using hw
      rw [if_neg (fun h => hw2 h.2)]
      simp [List.takeWhile_cons, hw]

theorem gatherWord_rest_length_le (l : Nat) (rest : List Char) :
    (gatherWord l rest []).2.length ≤ rest.length := by
  rw [gatherWord_closed]
  simp only [List.length_drop]
  omega

theorem gatherWord_rest_length_lt (l : Nat) (c : Char) (tl : List Char)
    (hl : l < 79) (hc : isWordChar c = true) :
    (gatherWord l (c :: tl) []).2.length < (c :: tl).length := by
  rw [gatherWord_closed]
  simp only [List.length_drop, List.length_nil, Nat.add_zero, List.takeWhile_cons, hc, if_true,
    List.length_cons]
  omega

theorem gatherWord_full (l : Nat) (rest : List Char) (hl : 79 ≤ l) :
    gatherWord l rest [] = ([], rest) := by
  rw [gatherWord_closed]
  have e : 79 - (l + ([] : List Char).length) = 0 := by simp; omega
  rw [e]
  simp

theorem isWordChar_of (c : Char) (h1 : c ≠ '$') (h2 : isspace c = false) :
    isWordChar c = true := by
  simp [isWordChar, h1, h2]

/-- The passes of the loop do not look at `outStr`: they append to it. -/
theorem pass_outStr (r : List Char) (l : Nat) (out : List Char) :
    pass { rest := r, lineLen := l, outStr := out } =
      { rest := (pass { rest := r, lineLen := l, outStr := [] }).rest,
        lineLen := (pass { rest := r, lineLen := l, outStr := [] }).lineLen,
        outStr := out ++ (pass { rest := r, lineLen := l, outStr := [] }).outStr } := by
  cases r with
  | nil => simp [pass]
  | cons ch tl =>
    simp only [pass]
    split
    · simp
    · split
      · split
        · simp
        · split <;> simp
      · split <;> simp

theorem isspace_ne_dollar (c : Char) (h : isspace c = true) : c ≠ '$' := by
  intro hc
  subst hc
  revert h
  decide

theorem pass_dollar (tl : List Char) (l : Nat) (out : List Char) :
    pass { rest := '$' :: tl, lineLen := l, outStr := out } =
      { rest := skipDollars tl, lineLen := 3, outStr := out ++ eol ++ indent } := by
  simp [pass, kIndent]

theorem pass_space_full (ch : Char) (tl : List Char) (l : Nat) (out : List Char)
    (hs : isspace ch = true) (hl : 79 ≤ l) :
    pass { rest := ch :: tl, lineLen := l, outStr := out } =
      { rest := tl, lineLen := 3, outStr := out ++ eol ++ indent } := by
  have hd := isspace_ne_dollar ch hs
  simp [pass, kIndent, hd, hs, hl]

theorem pass_space (ch : Char) (tl : List Char) (l : Nat) (out : List Char)
    (hs : isspace ch = true) (hl : l < 79) (h0 : 0 < l) :
    pass { rest := ch :: tl, lineLen := l, outStr := out } =
      { rest := tl, lineLen := l + 1, outStr := out ++ [ch] } := by
  have hd := isspace_ne_dollar ch hs
  have hl2 : ¬ 79 ≤ l := by omega
  simp [pass, hd, hs, hl2, h0]

theorem pass_space_zero (ch : Char) (tl : List Char) (out : List Char)
    (hs : isspace ch = true) :
    pass { rest := ch :: tl, lineLen := 0, outStr := out } =
      { rest := tl, lineLen := 0, outStr := out } := by
  have hd := isspace_ne_dollar ch hs
  simp [pass, hd, hs]

theorem pass_word (ch : Char) (tl : List Char) (l : Nat) (out : List Char)
    (hw : isWordChar ch = true) :
    pass { rest := ch :: tl, lineLen := l, outStr := out } =
      if 79 ≤ l + (gatherWord l (ch :: tl) []).1.length then
        { rest := (gatherWord l (ch :: tl) []).2,
          lineLen := 3 + (gatherWord l (ch :: tl) []).1.length,
          outStr := out ++ eol ++ indent ++ (gatherWord l (ch :: tl) []).1 }
      else
        { rest := (gatherWord l (ch :: tl) []).2,
          lineLen := l + (gatherWord l (ch :: tl) []).1.length,
          outStr := out ++ (gatherWord l (ch :: tl) []).1 } := by
  have h : isspace ch = false ∧ ch ≠ '$' := by simpa [isWordChar] using hw
  simp [pass, kIndent, h.1, h.2]

theorem char_cases (ch : Char) :
    ch = '$' ∨ isspace ch = true ∨ isWordChar ch = true := by
  by_cases hd : ch = '$'
  · exact Or.inl hd
  · by_cases hs : isspace ch = true
    · exact Or.inr (Or.inl hs)
    · exact Or.inr (Or.inr (isWordChar_of ch hd (by simpa using hs)))

theorem gatherWord_word_length_le (l : Nat) (rest : List Char) :
    (gatherWord l rest []).1.length ≤ 79 - l := by
  rw [gatherWord_closed]
  simp only [List.nil_append, List.length_take, List.length_nil]
  omega

/-- Every pass on a non-empty rest lowers `passBound`. -/
theorem pass_passBound (st : MungeState) (h : st.rest ≠ []) :
    passBound (pass st) < passBound st := by
  obtain ⟨r, l, out⟩ := st
  cases r with
  | nil => exact absurd rfl h
  | cons ch tl =>
    rcases char_cases ch with hd | hs | hw
    · subst hd
      have := skipDollars_length_le tl
      rw [pass_dollar]
      simp only [passBound, List.length_cons]
      split_ifs <;> omega
    · by_cases hl : 79 ≤ l
      · rw [pass_space_full ch tl l out hs hl]
        simp only [passBound, List.length_cons]
        split_ifs <;> omega
      · by_cases h0 : 0 < l
        · rw [pass_space ch tl l out hs (by omega) h0]
          simp only [passBound, List.length_cons]
          split_ifs <;> omega
        · have hz : l = 0 := by omega
          subst hz
          have hd := isspace_ne_dollar ch hs
          simp [pass, passBound, hd, hs]
    · rw [pass_word ch tl l out hw]
      by_cases hl : l < 79
      · have h1 := gatherWord_rest_length_lt l ch tl hl hw
        have h2 := gatherWord_word_length_le l (ch :: tl)
        simp only [List.length_cons] at h1
        simp only [passBound, List.length_cons]
        split_ifs <;> simp only [] <;> omega
      · have hfull := gatherWord_full l (ch :: tl) (by omega)
        rw [hfull]
        have h79 : 79 ≤ l + ([] : List Char).length := by simp; omega
        rw [if_pos h79]
        simp only [passBound, List.length_nil, List.length_cons]
        split_ifs <;> omega

theorem mungeLoop_done (fuel : Nat) (st : MungeState) (h : st.rest = []) :
    mungeLoop fuel st = st := by
  cases fuel with
  | zero => rfl
  | succ n => simp [mungeLoop, h]

theorem mungeLoop_step (fuel : Nat) (st : MungeState) (h : st.rest ≠ []) :
    mungeLoop (fuel + 1) st = mungeLoop fuel (pass st) := by
  simp [mungeLoop, h]

/-- With `passBound st` passes of fuel the loop has left through its test, and
more fuel changes nothing. -/
theorem mungeLoop_fuel (fuel1 fuel2 : Nat) (st : MungeState)
    (h1 : passBound st ≤ fuel1) (h2 : passBound st ≤ fuel2) :
    mungeLoop fuel1 st = mungeLoop fuel2 st := by
  induction fuel1 generalizing fuel2 st with
  | zero =>
    have hr : st.rest = [] := by
      simp only [passBound] at h1
      have : st.rest.length = 0 := by omega
      exact List.length_eq_zero.mp this
    rw [mungeLoop_done _ _ hr, mungeLoop_done _ _ hr]
  | succ n ih =>
    by_cases hr : st.rest = []
    · rw [mungeLoop_done _ _ hr, mungeLoop_done _ _ hr]
    · have hb := pass_passBound st hr
      cases fuel2 with
      | zero => omega
      | succ m =>
        rw [mungeLoop_step _ _ hr, mungeLoop_step _ _ hr]
        exact ih m (pass st) (by omega) (by omega)

theorem mungeLoop_rest (fuel : Nat) (st : MungeState) (h : passBound st ≤ fuel) :
    (mungeLoop fuel st).rest = [] := by
  induction fuel generalizing st with
  | zero =>
    simp only [passBound] at h
    have : st.rest.length = 0 := by omega
    simpa [mungeLoop] using List.length_eq_zero.mp this
  | succ n ih =>
    by_cases hr : st.rest = []
    · rw [mungeLoop_done _ _ hr]; exact hr
    · rw [mungeLoop_step _ _ hr]
      exact ih _ (by have := pass_passBound st hr; omega)

/-- The fuel that `munge_description` gives its loop is enough: the loop leaves
through its test `i < inStr.length()`. -/
theorem munge_description_loop_exits (inStr : List Char) :
    (mungeLoop (2 * inStr.length + 1)
      { rest := inStr, lineLen := kIndent, outStr := indent }).rest = [] := by
  apply mungeLoop_rest
  simp [passBound, kIndent]

theorem mungeLoop_outStr (fuel : Nat) (r : List Char) (l : Nat) (out : List Char) :
    (mungeLoop fuel { rest := r, lineLen := l, outStr := out }).outStr =
      out ++ (mungeLoop fuel { rest := r, lineLen := l, outStr := [] }).outStr := by
  induction fuel generalizing r l out with
  | zero => simp [mungeLoop]
  | succ n ih =>
    by_cases hr : r = []
    · simp [mungeLoop, hr]
    · rw [mungeLoop_step _ _ (by simpa using hr), mungeLoop_step _ _ (by simpa using hr)]
      rw [pass_outStr r l out, ih]
      conv_rhs => rw [ih]
      simp

theorem passBound_le (r : List Char) (l : Nat) (out : List Char) :
    passBound { rest := r, lineLen := l, outStr := out } ≤ 2 * r.length + 1 := by
  simp only [passBound]
  split <;> omega

/-! ## The text appended by the loop -/

theorem emitted_nil (l : Nat) : emitted [] l = [] := by
  simp [emitted, mungeLoop]

theorem emitted_step (r : List Char) (l : Nat) (h : r ≠ []) :
    emitted r l =
      (pass { rest := r, lineLen := l, outStr := [] }).outStr ++
        emitted (pass { rest := r, lineLen := l, outStr := [] }).rest
          (pass { rest := r, lineLen := l, outStr := [] }).lineLen := by
  have hb := pass_passBound { rest := r, lineLen := l, outStr := [] } h
  have hle := passBound_le r l []
  unfold emitted
  rw [mungeLoop_step _ _ h]
  generalize hp : pass { rest := r, lineLen := l, outStr := [] } = p at hb ⊢
  obtain ⟨r2, l2, o2⟩ := p
  have hle2 := passBound_le r2 l2 o2
  have hle3 := passBound_le r2 l2 []
  have hsame : passBound { rest := r2, lineLen := l2, outStr := ([] : List Char) } =
      passBound { rest := r2, lineLen := l2, outStr := o2 } := rfl
  rw [mungeLoop_outStr]
  simp only
  rw [mungeLoop_fuel (2 * r.length) (2 * r2.length + 1) _ (by omega) (by omega)]

theorem emitted_dollar (tl : List Char) (l : Nat) :
    emitted ('$' :: tl) l = eol ++ indent ++ emitted (skipDollars tl) 3 := by
  rw [emitted_step _ _ (by simp), pass_dollar]
  simp

theorem emitted_space_full (ch : Char) (tl : List Char) (l : Nat)
    (hs : isspace ch = true) (hl : 79 ≤ l) :
    emitted (ch :: tl) l = eol ++ indent ++ emitted tl 3 := by
  rw [emitted_step _ _ (by simp), pass_space_full ch tl l [] hs hl]
  simp

theorem emitted_space (ch : Char) (tl : List Char) (l : Nat)
    (hs : isspace ch = true) (hl : l < 79) (h0 : 0 < l) :
    emitted (ch :: tl) l = ch :: emitted tl (l + 1) := by
  rw [emitted_step _ _ (by simp), pass_space ch tl l [] hs hl h0]
  simp

theorem emitted_space_zero (ch : Char) (tl : List Char) (hs : isspace ch = true) :
    emitted (ch :: tl) 0 = emitted tl 0 := by
  rw [emitted_step _ _ (by simp), pass_space_zero ch tl [] hs]
  simp

theorem emitted_word (ch : Char) (tl : List Char) (l : Nat) (hw : isWordChar ch = true) :
    emitted (ch :: tl) l =
      if 79 ≤ l + (gatherWord l (ch :: tl) []).1.length then
        eol ++ indent ++ (gatherWord l (ch :: tl) []).1 ++
          emitted (gatherWord l (ch :: tl) []).2 (3 + (gatherWord l (ch :: tl) []).1.length)
      else
        (gatherWord l (ch :: tl) []).1 ++
          emitted (gatherWord l (ch :: tl) []).2 (l + (gatherWord l (ch :: tl) []).1.length) := by
  rw [emitted_step _ _ (by simp), pass_word ch tl l [] hw]
  split_ifs <;> simp

/-- The function in terms of the text appended by its loop. -/
theorem munge_description_eq (inStr : List Char) :
    munge_description inStr = indent ++ emitted inStr 3 ++ eol := by
  unfold munge_description emitted
  rw [mungeLoop_outStr]
  rfl

theorem passBound_mk (r : List Char) (l : Nat) (out : List Char) :
    passBound { rest := r, lineLen := l, outStr := out } =
      2 * r.length + (if 79 ≤ l then 1 else 0) := rfl

/-- Induction along the passes of the loop. -/
theorem emitted_induction (P : List Char → Nat → Prop)
    (hnil : ∀ l, P [] l)
    (hdollar : ∀ tl l, P (skipDollars tl) 3 → P ('$' :: tl) l)
    (hfull : ∀ ch tl l, isspace ch = true → 79 ≤ l → P tl 3 → P (ch :: tl) l)
    (hspace : ∀ ch tl l, isspace ch = true → l < 79 → 0 < l → P tl (l + 1) → P (ch :: tl) l)
    (hzero : ∀ ch tl, isspace ch = true → P tl 0 → P (ch :: tl) 0)
    (hword : ∀ ch tl l, isWordChar ch = true →
      P (gatherWord l (ch :: tl) []).2
        (if 79 ≤ l + (gatherWord l (ch :: tl) []).1.length
          then 3 + (gatherWord l (ch :: tl) []).1.length
          else l + (gatherWord l (ch :: tl) []).1.length) →
      P (ch :: tl) l) :
    ∀ r l, P r l := by
  have key : ∀ n r l, passBound { rest := r, lineLen := l, outStr := [] } ≤ n → P r l := by
    intro n
    induction n with
    | zero =>
      intro r l h
      simp only [passBound] at h
      have : r.length = 0 := by omega
      rw [List.length_eq_zero.mp this]
      exact hnil l
    | succ n ih =>
      intro r l h
      cases r with
      | nil => exact hnil l
      | cons ch tl =>
        have hb := pass_passBound { rest := ch :: tl, lineLen := l, outStr := [] } (by simp)
        rcases char_cases ch with hd | hs | hw
        · subst hd
          rw [pass_dollar] at hb
          refine hdollar tl l (ih _ _ ?_)
          simp only [passBound_mk] at hb h ⊢
          omega
        · by_cases hl : 79 ≤ l
          · rw [pass_space_full ch tl l [] hs hl] at hb
            refine hfull ch tl l hs hl (ih _ _ ?_)
            simp only [passBound_mk] at hb h ⊢
            omega
          · have hl2 : l < 79 := by omega
            by_cases h0 : 0 < l
            · refine hspace ch tl l hs hl2 h0 (ih _ _ ?_)
              simp only [passBound_mk, List.length_cons] at h ⊢
              split_ifs at h ⊢ <;> omega
            · have hz : l = 0 := by omega
              subst hz
              refine hzero ch tl hs (ih _ _ ?_)
              simp only [passBound_mk, List.length_cons] at h ⊢
              split_ifs at h ⊢
              omega
        · rw [pass_word ch tl l [] hw] at hb
          refine hword ch tl l hw (ih _ _ ?_)
          split_ifs at hb ⊢
          · simp only [passBound_mk] at hb h ⊢
            omega
          · simp only [passBound_mk] at hb h ⊢
            omega
  intro r l
  exact key _ r l (le_refl _)

/-! ## Physical lines -/

theorem physLines_nil : physLines [] = [[]] := rfl

theorem physLines_cons (c : Char) (t : List Char) :
    physLines (c :: t) =
      if c = '\n' then [] :: physLines t else (physLines t).modifyHead (List.cons c) := by
  unfold physLines List.splitOn
  rw [List.splitOnP_cons]
  by_cases h : c = '\n' <;> simp [h]

theorem physLines_ne_nil (t : List Char) : physLines t ≠ [] :=
  List.splitOnP_ne_nil _ _

theorem linesLe_iff (n cur : Nat) (t : List Char) :
    linesLe n cur t ↔
      (cur + ((physLines t).headD []).length ≤ n ∧ ∀ line ∈ (physLines t).tail, line.length ≤ n) := by
  induction t generalizing cur with
  | nil => simp [linesLe, physLines_nil]
  | cons c t ih =>
    rw [physLines_cons]
    by_cases h : c = '\n'
    · simp only [linesLe, h, if_true, ih 0]
      have hne := physLines_ne_nil t
      cases hp : physLines t with
      | nil => exact absurd hp hne
      | cons a b => simp
    · simp only [linesLe, h, if_false, ih (cur + 1)]
      have hne := physLines_ne_nil t
      cases hp : physLines t with
      | nil => exact absurd hp hne
      | cons a b =>
        simp only [List.modifyHead, List.headD_cons, List.length_cons, List.tail_cons]
        constructor
        · rintro ⟨h1, h2⟩; exact ⟨by omega, h2⟩
        · rintro ⟨h1, h2⟩; exact ⟨by omega, h2⟩

theorem linesLe_zero_iff (n : Nat) (t : List Char) :
    linesLe n 0 t ↔ ∀ line ∈ physLines t, line.length ≤ n := by
  rw [linesLe_iff]
  have hne := physLines_ne_nil t
  cases hp : physLines t with
  | nil => exact absurd hp hne
  | cons a b => simp

theorem linesLe_cons_nl (n cur : Nat) (t : List Char) :
    linesLe n cur ('\n' :: t) ↔ (cur ≤ n ∧ linesLe n 0 t) := by
  simp [linesLe]

theorem linesLe_cons_ne (n cur : Nat) (c : Char) (t : List Char) (hc : c ≠ '\n') :
    linesLe n cur (c :: t) ↔ linesLe n (cur + 1) t := by
  simp [linesLe, hc]

theorem linesLe_append_word (n cur : Nat) (w t : List Char)
    (hw : ∀ c ∈ w, c ≠ '\n') :
    linesLe n cur (w ++ t) ↔ linesLe n (cur + w.length) t := by
  induction w generalizing cur with
  | nil => simp
  | cons c w ih =>
    have hc : c ≠ '\n' := hw c (by simp)
    rw [List.cons_append, linesLe_cons_ne _ _ _ _ hc,
      ih (cur + 1) (fun x hx => hw x (by simp [hx]))]
    simp only [List.length_cons]
    have e : cur + 1 + w.length = cur + (w.length + 1) := by omega
    rw [e]

theorem gatherWord_word_chars (l : Nat) (rest : List Char) :
    ∀ c ∈ (gatherWord l rest []).1, isWordChar c = true := by
  intro c hc
  rw [gatherWord_closed] at hc
  simp only [List.nil_append] at hc
  exact List.mem_takeWhile_imp (List.mem_of_mem_take hc)

theorem isWordChar_ne_newline (c : Char) (h : isWordChar c = true) : c ≠ '\n' := by
  intro hc
  subst hc
  revert h
  decide

theorem indent_ne_newline : ∀ c ∈ indent, c ≠ '\n' := by
  decide

theorem linesLe_eol (n cur : Nat) : linesLe n cur eol ↔ cur ≤ n := by
  show linesLe n cur ('\n' :: []) ↔ cur ≤ n
  rw [linesLe_cons_nl]
  simp [linesLe]

theorem linesLe_break (n cur : Nat) (t : List Char) :
    linesLe n cur (eol ++ indent ++ t) ↔ (cur ≤ n ∧ linesLe n 3 t) := by
  have e : eol ++ indent ++ t = '\n' :: (indent ++ t) := by simp [eol]
  rw [e, linesLe_cons_nl, linesLe_append_word _ _ _ _ indent_ne_newline]
  simp [indent, kIndent]

/-- The counter `lineLen` bounds the length of the line being written, and no
line passes the margin. -/
theorem emitted_linesLe (r : List Char) (l : Nat) :
    ∀ cur, cur ≤ l → 3 ≤ l → l ≤ 79 → linesLe 79 cur (emitted r l ++ eol) := by
  refine emitted_induction
    (fun r l => ∀ cur, cur ≤ l → 3 ≤ l → l ≤ 79 → linesLe 79 cur (emitted r l ++ eol))
    ?_ ?_ ?_ ?_ ?_ ?_ r l
  · intro l cur h1 _ h3
    rw [emitted_nil, List.nil_append, linesLe_eol]
    omega
  · intro tl l ih cur h1 _ h3
    rw [emitted_dollar, List.append_assoc, linesLe_break]
    exact ⟨by omega, ih _ (le_refl _) (le_refl _) (by omega)⟩
  · intro ch tl l hs hl ih cur h1 _ h3
    rw [emitted_space_full ch tl l hs hl, List.append_assoc, linesLe_break]
    exact ⟨by omega, ih _ (le_refl _) (le_refl _) (by omega)⟩
  · intro ch tl l hs hl h0 ih cur h1 h2 h3
    rw [emitted_space ch tl l hs hl h0]
    by_cases hn : ch = '\n'
    · subst hn
      rw [List.cons_append, linesLe_cons_nl]
      exact ⟨by omega, ih 0 (by omega) (by omega) (by omega)⟩
    · rw [List.cons_append, linesLe_cons_ne _ _ _ _ hn]
      exact ih (cur + 1) (by omega) (by omega) (by omega)
  · intro ch tl _ _ cur _ h2 _
    omega
  · intro ch tl l hw ih cur h1 h2 h3
    have hlen := gatherWord_word_length_le l (ch :: tl)
    have hnl : ∀ c ∈ (gatherWord l (ch :: tl) []).1, c ≠ '\n' :=
      fun c hc => isWordChar_ne_newline c (gatherWord_word_chars l (ch :: tl) c hc)
    rw [emitted_word ch tl l hw]
    split_ifs at ih ⊢ with hc
    · rw [List.append_assoc, List.append_assoc, linesLe_break,
        linesLe_append_word _ _ _ _ hnl]
      exact ⟨by omega, ih _ (le_refl _) (by omega) (by omega)⟩
    · rw [List.append_assoc, linesLe_append_word _ _ _ _ hnl]
      exact ih _ (by omega) (by omega) (by omega)

/-! ## Words and short inputs -/

theorem take_takeWhile_eq (n : Nat) (p : Char → Bool) (rest : List Char) :
    (rest.takeWhile p).take n = rest.take (min n (rest.takeWhile p).length) := by
  induction rest generalizing n with
  | nil => simp
  | cons c t ih =>
    by_cases hc : p c = true
    · cases n with
      | zero => simp
      | succ m =>
        simp only [List.takeWhile_cons, hc, if_true, List.take_succ_cons, List.length_cons,
          Nat.succ_min_succ, ih m]
    · simp [List.takeWhile_cons, hc]

theorem gatherWord_append (l : Nat) (rest : List Char) :
    (gatherWord l rest []).1 ++ (gatherWord l rest []).2 = rest := by
  rw [gatherWord_closed]
  simp only [List.nil_append, List.length_nil, Nat.add_zero]
  rw [take_takeWhile_eq]
  exact List.take_append_drop _ _

theorem takeWhile_all (p : Char → Bool) (w : List Char) (h : ∀ c ∈ w, p c = true) :
    w.takeWhile p = w := by
  induction w with
  | nil => rfl
  | cons c w ih =>
    rw [List.takeWhile_cons, h c (by simp), if_pos rfl, ih (fun x hx => h x (by simp [hx]))]

/-- What the word loop gathers from a run of word characters: as much of it as
the line still takes. -/
theorem gatherWord_of_word (l : Nat) (w : List Char) (h : ∀ c ∈ w, isWordChar c = true) :
    gatherWord l w [] = (w.take (79 - l), w.drop (79 - l)) := by
  rw [gatherWord_closed, takeWhile_all _ _ h]
  simp only [List.nil_append, List.length_nil, Nat.add_zero]
  congr 1
  by_cases hle : 79 - l ≤ w.length
  · rw [Nat.min_eq_left hle]
  · rw [Nat.min_eq_right (by omega), List.drop_of_length_le (le_refl _),
      List.drop_of_length_le (by omega)]

/-- An input without `$` that fits on the line is copied as it is. -/
theorem emitted_short (r : List Char) (l : Nat) :
    (∀ c ∈ r, c ≠ '$') → 0 < l → l + r.length < 79 → emitted r l = r := by
  refine emitted_induction
    (fun r l => (∀ c ∈ r, c ≠ '$') → 0 < l → l + r.length < 79 → emitted r l = r)
    ?_ ?_ ?_ ?_ ?_ ?_ r l
  · intro l _ _ _
    exact emitted_nil l
  · intro tl l _ hd _ _
    exact absurd rfl (hd '$' (by simp))
  · intro ch tl l _ hl _ _ _ hlen
    omega
  · intro ch tl l hs hl _ ih hd h0 hlen
    rw [emitted_space ch tl l hs hl h0,
      ih (fun c hc => hd c (by simp [hc])) (by omega) (by simp only [List.length_cons] at hlen; omega)]
  · intro ch tl _ _ _ h0 _
    omega
  · intro ch tl l hw ih hd h0 hlen
    have happ := gatherWord_append l (ch :: tl)
    have hlen2 : (gatherWord l (ch :: tl) []).1.length + (gatherWord l (ch :: tl) []).2.length =
        (ch :: tl).length := by
      rw [← List.length_append, happ]
    have hno : ¬ 79 ≤ l + (gatherWord l (ch :: tl) []).1.length := by omega
    rw [emitted_word ch tl l hw, if_neg hno]
    rw [if_neg hno] at ih
    rw [ih (fun c hc => hd c (by rw [← happ]; simp [hc])) (by omega) (by omega)]
    exact happ

theorem mem_intercalate_imp (sep : List Char) (xs : List (List Char)) (c : Char)
    (h : c ∈ List.intercalate sep xs) : c ∈ sep ∨ ∃ x ∈ xs, c ∈ x := by
  unfold List.intercalate at h
  rw [List.mem_flatten] at h
  obtain ⟨l, hl, hc⟩ := h
  induction xs with
  | nil => simp at hl
  | cons x xs ih =>
    cases xs with
    | nil =>
      simp at hl
      subst hl
      exact Or.inr ⟨l, by simp, hc⟩
    | cons y ys =>
      simp only [List.intersperse, List.mem_cons] at hl
      rcases hl with h1 | h1 | h1
      · subst h1; exact Or.inr ⟨l, by simp, hc⟩
      · subst h1; exact Or.inl hc
      · rcases ih (by simpa [List.intersperse] using h1) with h2 | ⟨z, hz, hcz⟩
        · exact Or.inl h2
        · exact Or.inr ⟨z, List.mem_cons_of_mem _ hz, hcz⟩

theorem isWordChar_ne_dollar (c : Char) (h : isWordChar c = true) : c ≠ '$' := by
  intro hc
  subst hc
  revert h
  decide

/-! ## Runs of `$` -/

theorem skipDollars_replicate (n : Nat) (y : List Char) :
    skipDollars (List.replicate n '$' ++ y) = skipDollars y := by
  induction n with
  | zero => simp
  | succ n ih => simp [List.replicate_succ, skipDollars, ih]

theorem skipDollars_append (tl z : List Char) :
    skipDollars (tl ++ z) = if skipDollars tl = [] then skipDollars z else skipDollars tl ++ z := by
  induction tl with
  | nil => simp [skipDollars]
  | cons c tl ih =>
    by_cases hc : c = '$'
    · simp [skipDollars, hc, ih]
    · simp [skipDollars, hc]

theorem takeWhile_append_stop (p : Char → Bool) (x z : List Char)
    (hz : ∀ c ∈ z.head?, p c = false) :
    (x ++ z).takeWhile p = x.takeWhile p := by
  induction x with
  | nil =>
    cases z with
    | nil => rfl
    | cons c z =>
      have := hz c (by simp)
      simp [List.takeWhile_cons, this]
  | cons c x ih =>
    by_cases hc : p c = true
    · simp [List.takeWhile_cons, hc, ih]
    · simp [List.takeWhile_cons, hc]

/-- The word loop does not look past a character that it does not take. -/
theorem gatherWord_append_stop (l : Nat) (x z : List Char)
    (hz : ∀ c ∈ z.head?, isWordChar c = false) :
    gatherWord l (x ++ z) [] = ((gatherWord l x []).1, (gatherWord l x []).2 ++ z) := by
  rw [gatherWord_closed, gatherWord_closed, takeWhile_append_stop _ _ _ hz]
  simp only [List.nil_append, List.length_nil, Nat.add_zero]
  congr 1
  have hle : min (79 - l) (x.takeWhile isWordChar).length ≤ x.length :=
    le_trans (Nat.min_le_right _ _) (List.takeWhile_prefix isWordChar).length_le
  exact List.drop_append_of_le_length hle

/-! ## The counter after a prefix, and reading an input in two parts -/

theorem mungeLoop_lineLen (fuel : Nat) (r : List Char) (l : Nat) (out : List Char) :
    (mungeLoop fuel { rest := r, lineLen := l, outStr := out }).lineLen =
      (mungeLoop fuel { rest := r, lineLen := l, outStr := [] }).lineLen := by
  induction fuel generalizing r l out with
  | zero => simp [mungeLoop]
  | succ n ih =>
    by_cases hr : r = []
    · simp [mungeLoop, hr]
    · rw [mungeLoop_step _ _ (by simpa using hr), mungeLoop_step _ _ (by simpa using hr)]
      rw [pass_outStr r l out, ih]
      conv_rhs => rw [ih]

theorem lineLenAfter_nil (l : Nat) : lineLenAfter [] l = l := by
  simp [lineLenAfter, mungeLoop]

theorem lineLenAfter_step (r : List Char) (l : Nat) (h : r ≠ []) :
    lineLenAfter r l =
      lineLenAfter (pass { rest := r, lineLen := l, outStr := [] }).rest
        (pass { rest := r, lineLen := l, outStr := [] }).lineLen := by
  have hb := pass_passBound { rest := r, lineLen := l, outStr := [] } h
  have hle := passBound_le r l []
  unfold lineLenAfter
  rw [mungeLoop_step _ _ h]
  generalize hp : pass { rest := r, lineLen := l, outStr := [] } = p at hb ⊢
  obtain ⟨r2, l2, o2⟩ := p
  have hle2 := passBound_le r2 l2 o2
  rw [mungeLoop_lineLen]
  simp only
  simp only [passBound_mk] at hb hle hle2
  rw [mungeLoop_fuel (2 * r.length) (2 * r2.length + 1) _
    (by simp only [passBound_mk]; omega) (by simp only [passBound_mk]; omega)]

theorem lineLenAfter_dollar (tl : List Char) (l : Nat) :
    lineLenAfter ('$' :: tl) l = lineLenAfter (skipDollars tl) 3 := by
  rw [lineLenAfter_step _ _ (by simp), pass_dollar]

theorem lineLenAfter_space_full (ch : Char) (tl : List Char) (l : Nat)
    (hs : isspace ch = true) (hl : 79 ≤ l) :
    lineLenAfter (ch :: tl) l = lineLenAfter tl 3 := by
  rw [lineLenAfter_step _ _ (by simp), pass_space_full ch tl l [] hs hl]

theorem lineLenAfter_space (ch : Char) (tl : List Char) (l : Nat)
    (hs : isspace ch = true) (hl : l < 79) (h0 : 0 < l) :
    lineLenAfter (ch :: tl) l = lineLenAfter tl (l + 1) := by
  rw [lineLenAfter_step _ _ (by simp), pass_space ch tl l [] hs hl h0]

theorem lineLenAfter_space_zero (ch : Char) (tl : List Char) (hs : isspace ch = true) :
    lineLenAfter (ch :: tl) 0 = lineLenAfter tl 0 := by
  rw [lineLenAfter_step _ _ (by simp), pass_space_zero ch tl [] hs]

theorem lineLenAfter_word (ch : Char) (tl : List Char) (l : Nat) (hw : isWordChar ch = true) :
    lineLenAfter (ch :: tl) l =
      lineLenAfter (gatherWord l (ch :: tl) []).2
        (if 79 ≤ l + (gatherWord l (ch :: tl) []).1.length
          then 3 + (gatherWord l (ch :: tl) []).1.length
          else l + (gatherWord l (ch :: tl) []).1.length) := by
  rw [lineLenAfter_step _ _ (by simp), pass_word ch tl l [] hw]
  split_ifs <;> rfl

/-- The counter stays between the indent and the margin. -/
theorem lineLenAfter_bounds (r : List Char) (l : Nat) :
    3 ≤ l → l ≤ 79 → 3 ≤ lineLenAfter r l ∧ lineLenAfter r l ≤ 79 := by
  refine emitted_induction
    (fun r l => 3 ≤ l → l ≤ 79 → 3 ≤ lineLenAfter r l ∧ lineLenAfter r l ≤ 79)
    ?_ ?_ ?_ ?_ ?_ ?_ r l
  · intro l h1 h2
    rw [lineLenAfter_nil]
    exact ⟨h1, h2⟩
  · intro tl l ih _ _
    rw [lineLenAfter_dollar]
    exact ih (le_refl _) (by omega)
  · intro ch tl l hs hl ih _ _
    rw [lineLenAfter_space_full ch tl l hs hl]
    exact ih (le_refl _) (by omega)
  · intro ch tl l hs hl h0 ih h1 h2
    rw [lineLenAfter_space ch tl l hs hl h0]
    exact ih (by omega) (by omega)
  · intro ch tl _ _ h1 _
    omega
  · intro ch tl l hw ih h1 h2
    have hlen := gatherWord_word_length_le l (ch :: tl)
    rw [lineLenAfter_word ch tl l hw]
    split_ifs at ih ⊢
    · exact ih (by omega) (by omega)
    · exact ih (by omega) (by omega)

theorem getLast?_suffix (P : Char → Prop) (a b : List Char) (hs : a <:+ b)
    (h : ∀ c ∈ b.getLast?, P c) : ∀ c ∈ a.getLast?, P c := by
  obtain ⟨t, rfl⟩ := hs
  intro c hc
  cases a with
  | nil => simp at hc
  | cons x a =>
    apply h c
    rw [List.getLast?_append_of_ne_nil _ (by simp)]
    exact hc

theorem takeWhile_append_last (p : Char → Bool) (x z : List Char) (hx : x ≠ [])
    (h : ∀ c ∈ x.getLast?, p c = false) :
    (x ++ z).takeWhile p = x.takeWhile p := by
  induction x with
  | nil => exact absurd rfl hx
  | cons c x ih =>
    by_cases hc : p c = true
    · cases x with
      | nil =>
        have := h c (by simp)
        rw [this] at hc
        exact absurd hc (by simp)
      | cons d x =>
        have h2 : ∀ e ∈ (d :: x).getLast?, p e = false := by
          intro e he
          apply h e
          rw [List.getLast?_cons_cons]
          exact he
        have ih2 := ih (by simp) h2
        rw [List.cons_append, List.takeWhile_cons, if_pos hc, ih2,
          List.takeWhile_cons (a := c), if_pos hc]
    · simp [List.takeWhile_cons, hc]

/-- The word loop, started inside `x`, does not reach `z` when `z` starts with
a character that it does not take, or when `x` ends with one. -/
theorem gatherWord_append_of (l : Nat) (x z : List Char)
    (h : (x ++ z).takeWhile isWordChar = x.takeWhile isWordChar) :
    gatherWord l (x ++ z) [] = ((gatherWord l x []).1, (gatherWord l x []).2 ++ z) := by
  rw [gatherWord_closed, gatherWord_closed, h]
  simp only [List.nil_append, List.length_nil, Nat.add_zero]
  congr 1
  have hle : min (79 - l) (x.takeWhile isWordChar).length ≤ x.length :=
    le_trans (Nat.min_le_right _ _) (List.takeWhile_prefix isWordChar).length_le
  exact List.drop_append_of_le_length hle

theorem gatherWord_rest_suffix (l : Nat) (x : List Char) : (gatherWord l x []).2 <:+ x := by
  rw [gatherWord_closed]
  exact List.drop_suffix _ _

theorem skipDollars_suffix (x : List Char) : skipDollars x <:+ x := by
  rw [skipDollars_eq_dropWhile]
  exact List.dropWhile_suffix _

/-- Reading `pre ++ z` is reading `pre` and then `z`, when the boundary between
them is one at which a pass of the loop ends: `z` does not start with `$`, and
either `z` starts with a character that is no word character or `pre` ends
with one. -/
theorem emitted_append (z : List Char) (hD : ∀ c ∈ z.head?, c ≠ '$') (pre : List Char) (l : Nat) :
    ((∀ c ∈ z.head?, isWordChar c = false) ∨ (∀ c ∈ pre.getLast?, isWordChar c = false)) →
    emitted (pre ++ z) l = emitted pre l ++ emitted z (lineLenAfter pre l) := by
  refine emitted_induction
    (fun pre l =>
      ((∀ c ∈ z.head?, isWordChar c = false) ∨ (∀ c ∈ pre.getLast?, isWordChar c = false)) →
      emitted (pre ++ z) l = emitted pre l ++ emitted z (lineLenAfter pre l))
    ?_ ?_ ?_ ?_ ?_ ?_ pre l
  · intro l _
    rw [List.nil_append, emitted_nil, lineLenAfter_nil, List.nil_append]
  · intro tl l ih hW
    have hW2 : (∀ c ∈ z.head?, isWordChar c = false) ∨
        (∀ c ∈ (skipDollars tl).getLast?, isWordChar c = false) :=
      hW.imp id (getLast?_suffix _ _ _
        ((skipDollars_suffix tl).trans (List.suffix_cons _ _)))
    have hz : skipDollars z = z := by
      cases z with
      | nil => rfl
      | cons c z => simp [skipDollars, hD c (by simp)]
    have e : skipDollars (tl ++ z) = skipDollars tl ++ z := by
      rw [skipDollars_append]
      split_ifs with he
      · rw [he, hz, List.nil_append]
      · rfl
    rw [List.cons_append, emitted_dollar, emitted_dollar, lineLenAfter_dollar, e, ih hW2]
    simp only [List.append_assoc]
  · intro ch tl l hs hl ih hW
    have hW2 := hW.imp id (getLast?_suffix _ _ _ (List.suffix_cons ch tl))
    rw [List.cons_append, emitted_space_full ch _ l hs hl, emitted_space_full ch _ l hs hl,
      lineLenAfter_space_full ch tl l hs hl, ih hW2]
    simp only [List.append_assoc]
  · intro ch tl l hs hl h0 ih hW
    have hW2 := hW.imp id (getLast?_suffix _ _ _ (List.suffix_cons ch tl))
    rw [List.cons_append, emitted_space ch _ l hs hl h0, emitted_space ch _ l hs hl h0,
      lineLenAfter_space ch tl l hs hl h0, ih hW2]
    rfl
  · intro ch tl hs ih hW
    have hW2 := hW.imp id (getLast?_suffix _ _ _ (List.suffix_cons ch tl))
    rw [List.cons_append, emitted_space_zero ch _ hs, emitted_space_zero ch _ hs,
      lineLenAfter_space_zero ch tl hs, ih hW2]
  · intro ch tl l hw ih hW
    have hW2 := hW.imp id (getLast?_suffix _ _ _ (gatherWord_rest_suffix l (ch :: tl)))
    have htw : ((ch :: tl) ++ z).takeWhile isWordChar = (ch :: tl).takeWhile isWordChar := by
      rcases hW with h1 | h1
      · exact takeWhile_append_stop _ _ _ h1
      · exact takeWhile_append_last _ _ _ (by simp) h1
    have e := gatherWord_append_of l (ch :: tl) z htw
    rw [List.cons_append] at e
    rw [List.cons_append, emitted_word ch _ l hw, emitted_word ch tl l hw,
      lineLenAfter_word ch tl l hw, e]
    simp only
    split_ifs at ih ⊢
    · rw [ih hW2]; simp only [List.append_assoc]
    · rw [ih hW2]; simp only [List.append_assoc]

/-- A word that fits on the line is appended to it. -/
theorem emitted_word_fit (w post : List Char) (l : Nat)
    (hw : ∀ c ∈ w, isWordChar c = true) (hne : w ≠ [])
    (hpost : ∀ c ∈ post.head?, isWordChar c = false) (hfit : l + w.length < 79) :
    emitted (w ++ post) l = w ++ emitted post (l + w.length) := by
  have hg : gatherWord l (w ++ post) [] = (w, post) := by
    rw [gatherWord_append_stop l w post hpost, gatherWord_of_word l w hw,
      List.take_of_length_le (by omega), List.drop_of_length_le (by omega)]
    rfl
  cases w with
  | nil => exact absurd rfl hne
  | cons ch tl =>
    rw [List.cons_append] at hg ⊢
    rw [emitted_word ch _ l (hw ch (by simp)), hg]
    simp only
    rw [if_neg (by omega)]

/-- A word of at most 75 characters is written in one piece: on the current line
if it fits there, on a fresh line otherwise. -/
theorem emitted_whole_word (w post : List Char) (l : Nat)
    (hw : ∀ c ∈ w, isWordChar c = true) (hne : w ≠ []) (hlen : w.length ≤ 75)
    (hpost : ∀ c ∈ post.head?, isWordChar c = false) (h3 : 3 ≤ l) (h79 : l ≤ 79) :
    emitted (w ++ post) l =
      if l + w.length < 79 then w ++ emitted post (l + w.length)
      else eol ++ indent ++ w ++ emitted post (3 + w.length) := by
  by_cases hfit : l + w.length < 79
  · rw [if_pos hfit]
    exact emitted_word_fit w post l hw hne hpost hfit
  · rw [if_neg hfit]
    have hg : gatherWord l (w ++ post) [] = (w.take (79 - l), w.drop (79 - l) ++ post) := by
      rw [gatherWord_append_stop l w post hpost, gatherWord_of_word l w hw]
    have htl : (w.take (79 - l)).length = 79 - l := by
      rw [List.length_take]; omega
    have hdl : (w.drop (79 - l)).length = w.length - (79 - l) := List.length_drop _ _
    cases hw0 : w with
    | nil => exact absurd hw0 hne
    | cons ch tl =>
      have hch : isWordChar ch = true := hw ch (by rw [hw0]; simp)
      have h1 : emitted (w ++ post) l =
          eol ++ indent ++ w.take (79 - l) ++ emitted (w.drop (79 - l) ++ post) (3 + (79 - l)) := by
        conv_lhs => rw [hw0, List.cons_append]
        rw [emitted_word ch _ l hch, ← List.cons_append, ← hw0, hg]
        simp only [htl]
        rw [if_pos (by omega)]
      rw [← hw0, h1]
      by_cases hd : w.drop (79 - l) = []
      · have hk : w.length ≤ 79 - l := by
          rw [hd] at hdl; simp at hdl; omega
        rw [hd, List.take_of_length_le hk, List.nil_append]
        have e : 3 + (79 - l) = 3 + w.length := by omega
        rw [e]
      · have hwd : ∀ c ∈ w.drop (79 - l), isWordChar c = true :=
          fun c hc => hw c (List.mem_of_mem_drop hc)
        rw [emitted_word_fit _ post _ hwd hd hpost (by omega)]
        have e : 3 + (79 - l) + (w.drop (79 - l)).length = 3 + w.length := by omega
        rw [e]
        have e2 : eol ++ indent ++ w.take (79 - l) ++ (w.drop (79 - l) ++ emitted post (3 + w.length))
            = eol ++ indent ++ (w.take (79 - l) ++ w.drop (79 - l)) ++ emitted post (3 + w.length) := by
          simp only [List.append_assoc]
        rw [e2, List.take_append_drop]

/-- Whitespace read before the counter reaches 79 is copied as it is. -/
theorem emitted_spaces (ws post : List Char) (l : Nat)
    (hws : ∀ c ∈ ws, isspace c = true) (h0 : 0 < l) (hfit : l + ws.length ≤ 79) :
    emitted (ws ++ post) l = ws ++ emitted post (l + ws.length) := by
  induction ws generalizing l with
  | nil => simp
  | cons c ws ih =>
    simp only [List.length_cons] at hfit
    rw [List.cons_append, emitted_space c _ l (hws c (by simp)) (by omega) h0,
      ih (l + 1) (fun x hx => hws x (by simp [hx])) (by omega) (by omega)]
    simp only [List.length_cons, List.cons_append]
    have e : l + 1 + ws.length = l + (ws.length + 1) := by omega
    rw [e]

theorem munge_description_dropLast (inStr : List Char) :
    (munge_description inStr).dropLast = indent ++ emitted inStr 3 := by
  rw [munge_description_eq, eol, List.dropLast_concat]

/-! ## C1: no physical line passes the margin -/

/-- C1: for every input string, every physical line of the output of
`munge_description` is at most 79 characters long.  The exception that the claim
allows (a line holding one word longer than 76 characters) is never used: the
word loop stops at the margin, so no line is longer than 79. -/
theorem munge_description_line_le_margin (inStr line : List Char)
    (h : line ∈ physLines (munge_description inStr)) : line.length ≤ 79 := by
  have key : linesLe 79 0 (munge_description inStr) := by
    rw [munge_description_eq, List.append_assoc,
      linesLe_append_word _ _ _ _ indent_ne_newline]
    exact emitted_linesLe inStr 3 _ (by simp [indent, kIndent]) (le_refl _) (by omega)
  exact (linesLe_zero_iff 79 _).mp key line h

set_option maxRecDepth 100000 in
/-- Witness of C1 on a token of 100 characters, whose second line is 79 long. -/
theorem munge_description_line_le_margin_witness :
    (indent ++ List.replicate 76 'x') ∈ physLines (munge_description (List.replicate 100 'x')) ∧
      (indent ++ List.replicate 76 'x').length ≤ 79 :=
  ⟨by decide, munge_description_line_le_margin (List.replicate 100 'x') _ (by decide)⟩

/-! ## C3: a token longer than the usable width -/

/-- C3, as the claim states it, fails: a token of 100 characters is not kept on
one line of 103 characters. -/
theorem munge_description_long_token_counterexample :
    munge_description (List.replicate 100 'x') ≠
      indent ++ List.replicate 100 'x' ++ eol := by
  decide

/-- C3, amended: a token of word characters that is longer than 76 characters is
broken at the margin.  The output is a line holding only the indent, then a line
with the indent and the first 76 characters of the token, then the output that
`munge_description` gives for the rest of the token. -/
theorem munge_description_long_token (token : List Char)
    (hword : ∀ c ∈ token, isWordChar c = true) (hlen : 76 < token.length) :
    munge_description token =
      indent ++ eol ++ indent ++ token.take 76 ++ eol ++ munge_description (token.drop 76) := by
  have hg := gatherWord_of_word 3 token hword
  have hdrop : (token.drop 76).length = token.length - 76 := List.length_drop _ _
  have htake : (token.take 76).length = 76 := by
    rw [List.length_take]; omega
  cases htok : token with
  | nil => rw [htok] at hlen; simp at hlen
  | cons ch tl =>
    have hch : isWordChar ch = true := hword ch (by rw [htok]; simp)
    rw [← htok, munge_description_eq, munge_description_eq]
    have h1 : emitted token 3 =
        eol ++ indent ++ token.take 76 ++ emitted (token.drop 76) 79 := by
      conv_lhs => rw [htok]
      rw [emitted_word ch tl 3 hch, ← htok, hg]
      simp only [htake]
      rw [if_pos (by omega)]
    cases hrest : token.drop 76 with
    | nil => rw [hrest] at hdrop; simp at hdrop; omega
    | cons c2 t2 =>
      have hc2 : isWordChar c2 = true :=
        hword c2 (List.mem_of_mem_drop (by rw [hrest]; simp))
      have h2 : emitted (c2 :: t2) 79 = eol ++ indent ++ emitted (c2 :: t2) 3 := by
        rw [emitted_word c2 t2 79 hc2, gatherWord_full 79 (c2 :: t2) (le_refl _)]
        simp
      rw [h1, hrest, h2]
      simp only [List.append_assoc]

set_option maxRecDepth 100000 in
/-- Witness of the amended C3: the token of 100 characters gives three lines. -/
theorem munge_description_long_token_witness :
    (∀ c ∈ List.replicate 100 'x', isWordChar c = true) ∧ 76 < (List.replicate 100 'x').length ∧
      munge_description (List.replicate 100 'x') =
        indent ++ eol ++ indent ++ (List.replicate 100 'x').take 76 ++ eol ++
          munge_description ((List.replicate 100 'x').drop 76) ∧
      munge_description ((List.replicate 100 'x').drop 76) =
        indent ++ List.replicate 24 'x' ++ eol :=
  ⟨by decide, by decide,
    munge_description_long_token (List.replicate 100 'x') (by decide) (by decide), by decide⟩

/-! ## C4: a short input is one line -/

/-- C4: an input shorter than 76 characters that consists of words (non-empty
runs of characters that are neither whitespace nor `$`) joined by single spaces
comes back as one line: three spaces, the input unchanged, one newline. -/
theorem munge_description_single_line (inStr : List Char) (words : List (List Char))
    (hlen : inStr.length < 76)
    (hwords : inStr = List.intercalate [' '] words)
    (hw : ∀ w ∈ words, w ≠ [] ∧ ∀ c ∈ w, isWordChar c = true) :
    munge_description inStr = indent ++ inStr ++ eol := by
  have hd : ∀ c ∈ inStr, c ≠ '$' := by
    intro c hc
    rw [hwords] at hc
    rcases mem_intercalate_imp _ _ c hc with h1 | ⟨w, hw1, hw2⟩
    · intro h; subst h; revert h1; decide
    · exact isWordChar_ne_dollar c ((hw w hw1).2 c hw2)
  rw [munge_description_eq, emitted_short inStr 3 hd (by omega) (by omega)]

/-- Witness of C4 on the input of the example, `"abc def"`, and on a single word. -/
theorem munge_description_single_line_witness :
    ("abc def".toList.length < 76 ∧
      "abc def".toList = List.intercalate [' '] ["abc".toList, "def".toList] ∧
      (∀ w ∈ ["abc".toList, "def".toList], w ≠ [] ∧ ∀ c ∈ w, isWordChar c = true)) ∧
    munge_description "abc def".toList = indent ++ "abc def".toList ++ eol ∧
    munge_description "abc def".toList = "   abc def\n".toList ∧
    munge_description "abc".toList = "   abc\n".toList :=
  ⟨⟨by decide, by decide, by decide⟩,
    munge_description_single_line "abc def".toList ["abc".toList, "def".toList]
      (by decide) (by decide) (by decide),
    by decide, by decide⟩

/-! ## C5: a run of `$` is one line break -/

theorem emitted_dollar_run (n : Nat) (y : List Char) (x : List Char) (l : Nat) :
    emitted (x ++ (List.replicate (n + 1) '$' ++ y)) l = emitted (x ++ '$' :: y) l := by
  refine emitted_induction
    (fun x l => emitted (x ++ (List.replicate (n + 1) '$' ++ y)) l = emitted (x ++ '$' :: y) l)
    ?_ ?_ ?_ ?_ ?_ ?_ x l
  · intro l
    simp only [List.nil_append, List.replicate_succ, List.cons_append]
    rw [emitted_dollar, emitted_dollar, skipDollars_replicate]
  · intro tl l ih
    simp only [List.cons_append]
    rw [emitted_dollar, emitted_dollar, skipDollars_append tl (List.replicate (n + 1) '$' ++ y),
      skipDollars_append tl ('$' :: y)]
    by_cases he : skipDollars tl = []
    · rw [if_pos he, if_pos he]
      have e : skipDollars (List.replicate (n + 1) '$' ++ y) = skipDollars ('$' :: y) := by
        rw [skipDollars_replicate]
        simp [skipDollars]
      rw [e]
    · rw [if_neg he, if_neg he, ih]
  · intro ch tl l hs hl ih
    simp only [List.cons_append]
    rw [emitted_space_full ch _ l hs hl, emitted_space_full ch _ l hs hl, ih]
  · intro ch tl l hs hl h0 ih
    simp only [List.cons_append]
    rw [emitted_space ch _ l hs hl h0, emitted_space ch _ l hs hl h0, ih]
  · intro ch tl hs ih
    simp only [List.cons_append]
    rw [emitted_space_zero ch _ hs, emitted_space_zero ch _ hs, ih]
  · intro ch tl l hw ih
    have h1 : ∀ c ∈ (List.replicate (n + 1) '$' ++ y).head?, isWordChar c = false := by
      intro c hc
      simp [List.replicate_succ] at hc
      subst hc
      decide
    have h2 : ∀ c ∈ ('$' :: y).head?, isWordChar c = false := by
      intro c hc
      simp at hc
      subst hc
      decide
    have e1 := gatherWord_append_stop l (ch :: tl) _ h1
    have e2 := gatherWord_append_stop l (ch :: tl) _ h2
    rw [List.cons_append] at e1 e2
    simp only [List.cons_append]
    rw [emitted_word ch _ l hw, emitted_word ch _ l hw, e1, e2]
    simp only
    split_ifs at ih ⊢ <;> rw [ih]

/-- C5: a run of `n ≥ 1` characters `$` gives the same output as a single `$`,
whatever stands before and after it (also nothing): one line break, no blank
lines. -/
theorem munge_description_dollar_run (x y : List Char) (n : Nat) (hn : 1 ≤ n) :
    munge_description (x ++ List.replicate n '$' ++ y) =
      munge_description (x ++ ['$'] ++ y) := by
  obtain ⟨m, rfl⟩ : ∃ m, n = m + 1 := ⟨n - 1, by omega⟩
  rw [munge_description_eq, munge_description_eq, List.append_assoc x, emitted_dollar_run]
  simp

/-- Witness of C5 on the input of the example, `"a$$$b"`. -/
theorem munge_description_dollar_run_witness :
    1 ≤ 3 ∧
    munge_description ("a".toList ++ List.replicate 3 '$' ++ "b".toList) =
      munge_description ("a".toList ++ ['$'] ++ "b".toList) ∧
    munge_description "a$$$b".toList = "   a\n   b\n".toList :=
  ⟨by decide,
    munge_description_dollar_run "a".toList "b".toList 3 (by decide), by decide⟩

/-! ## C6: whitespace at the start of a line -/

/-- C6 fails on the code: after a `$` the space that follows is written behind
the indent, so the second line starts with four spaces.  The test
`lineLen > 0` that guards the copy never fails, as `lineLen` starts from
`kIndent = 3`.  A line break of the input is copied too, and the line after it
has no indent at all. -/
theorem munge_description_leading_space :
    munge_description "a$ b".toList = "   a\n    b\n".toList ∧
    physLines (munge_description "a$ b".toList) = ["   a".toList, "    b".toList, []] ∧
    munge_description " a".toList = "    a\n".toList ∧
    munge_description "a\nb".toList = "   a\nb\n".toList := by
  decide

/-! ## C2: words are not broken -/

set_option maxRecDepth 100000 in
/-- C2, as the claim states it, fails: a word of 76 characters (the usable
width) that stands behind `"a "` is broken after 74 characters. -/
theorem munge_description_word_broken_counterexample :
    munge_description ("a ".toList ++ List.replicate 76 'x' ++ []) =
      "   a \n   ".toList ++ List.replicate 74 'x' ++ "\n   xx\n".toList ∧
    ¬ wordUnbroken "a ".toList (List.replicate 76 'x') [] := by
  have hout : munge_description ("a ".toList ++ List.replicate 76 'x' ++ []) =
      "   a \n   ".toList ++ List.replicate 74 'x' ++ "\n   xx\n".toList := by decide
  refine ⟨hout, ?_⟩
  have hL5 : (munge_description ("a ".toList ++ List.replicate 76 'x' ++ []))[5]? = some '\n' := by
    decide
  have hL83 : (munge_description ("a ".toList ++ List.replicate 76 'x' ++ []))[83]? = some '\n' := by
    decide
  rintro ⟨rest, h | h⟩
  · have hA : (munge_description "a ".toList).dropLast = "   a ".toList := by decide
    have hR : ((munge_description "a ".toList).dropLast ++ List.replicate 76 'x' ++ rest)[5]? =
        some 'x' := by
      rw [hA, List.append_assoc, List.getElem?_append_right (by decide),
        List.getElem?_append_left (by decide)]
      decide
    rw [h, hR] at hL5
    exact absurd hL5 (by decide)
  · have hA : munge_description "a ".toList ++ indent = "   a \n   ".toList := by decide
    have hR : (munge_description "a ".toList ++ indent ++ List.replicate 76 'x' ++ rest)[83]? =
        some 'x' := by
      rw [hA, List.append_assoc, List.getElem?_append_right (by decide),
        List.getElem?_append_left (by decide)]
      decide
    rw [h, hR] at hL83
    exact absurd hL83 (by decide)

/-- C2, amended: a word (a maximal run of characters that are neither whitespace
nor `$`) of at most 75 characters is never broken, whatever stands before it:
it is written in one piece, behind the text of what precedes it or at the start
of a fresh line. -/
theorem munge_description_word_unbroken (pre w post : List Char)
    (hw : ∀ c ∈ w, isWordChar c = true) (hne : w ≠ []) (hlen : w.length ≤ 75)
    (hpre : ∀ c ∈ pre.getLast?, isWordChar c = false)
    (hpost : ∀ c ∈ post.head?, isWordChar c = false) :
    wordUnbroken pre w post := by
  have hb := lineLenAfter_bounds pre 3 (le_refl _) (by omega)
  have hD : ∀ c ∈ (w ++ post).head?, c ≠ '$' := by
    cases w with
    | nil => exact absurd rfl hne
    | cons ch tl =>
      intro c hc
      simp at hc
      subst hc
      exact isWordChar_ne_dollar _ (hw _ (by simp))
  have h1 := emitted_append (w ++ post) hD pre 3 (Or.inr hpre)
  have h2 := emitted_whole_word w post (lineLenAfter pre 3) hw hne hlen hpost hb.1 hb.2
  unfold wordUnbroken
  refine ⟨emitted post (if lineLenAfter pre 3 + w.length < 79
    then lineLenAfter pre 3 + w.length else 3 + w.length) ++ eol, ?_⟩
  rw [munge_description_dropLast, munge_description_eq, munge_description_eq,
    List.append_assoc pre, h1, h2]
  split_ifs
  · left; simp only [List.append_assoc]
  · right; simp only [List.append_assoc]

set_option maxRecDepth 100000 in
/-- Witness of the amended C2: a word of 75 characters behind `"a "` moves whole
to the next line. -/
theorem munge_description_word_unbroken_witness :
    ((∀ c ∈ List.replicate 75 'x', isWordChar c = true) ∧ List.replicate 75 'x' ≠ [] ∧
      (List.replicate 75 'x').length ≤ 75 ∧
      (∀ c ∈ "a ".toList.getLast?, isWordChar c = false) ∧
      (∀ c ∈ " b".toList.head?, isWordChar c = false)) ∧
    wordUnbroken "a ".toList (List.replicate 75 'x') " b".toList ∧
    munge_description ("a ".toList ++ List.replicate 75 'x' ++ " b".toList) =
      "   a \n   ".toList ++ List.replicate 75 'x' ++ " \n   b\n".toList :=
  ⟨⟨by decide, by decide, by decide, by decide, by decide⟩,
    munge_description_word_unbroken "a ".toList (List.replicate 75 'x') " b".toList
      (by decide) (by decide) (by decide) (by decide) (by decide),
    by decide⟩

/-! ## C7: runs of whitespace -/

theorem skipDollars_eq_nil (tl : List Char) (h : skipDollars tl = []) : ∀ c ∈ tl, c = '$' := by
  induction tl with
  | nil => simp
  | cons d tl ih =>
    by_cases hd : d = '$'
    · subst hd
      simp only [skipDollars, if_true] at h
      intro c hc
      rcases List.mem_cons.mp hc with h1 | h1
      · exact h1
      · exact ih h c h1
    · simp [skipDollars, hd] at h

/-- Behind a word character the counter is above the indent: the line holds
more than the indent. -/
theorem lineLenAfter_after_word (r : List Char) (l : Nat) :
    3 ≤ l → l ≤ 79 → r ≠ [] → (∀ c ∈ r.getLast?, isWordChar c = true) →
      3 < lineLenAfter r l := by
  refine emitted_induction
    (fun r l => 3 ≤ l → l ≤ 79 → r ≠ [] → (∀ c ∈ r.getLast?, isWordChar c = true) →
      3 < lineLenAfter r l)
    ?_ ?_ ?_ ?_ ?_ ?_ r l
  · intro l _ _ hne _
    exact absurd rfl hne
  · intro tl l ih _ _ _ hlast
    have hne : skipDollars tl ≠ [] := by
      intro he
      have hall := skipDollars_eq_nil tl he
      have hd : ∀ c ∈ ('$' :: tl).getLast?, c = '$' := by
        intro c hc
        rcases List.mem_cons.mp (List.mem_of_mem_getLast? hc) with h1 | h1
        · exact h1
        · exact hall c h1
      cases hg : ('$' :: tl).getLast? with
      | none => simp at hg
      | some c =>
        have h1 := hd c (by rw [hg]; simp)
        have h2 := hlast c (by rw [hg]; simp)
        subst h1
        exact absurd h2 (by decide)
    rw [lineLenAfter_dollar]
    exact ih (le_refl _) (by omega) hne
      (getLast?_suffix _ _ _ ((skipDollars_suffix tl).trans (List.suffix_cons _ _)) hlast)
  · intro ch tl l hs hl ih _ _ _ hlast
    have hne : tl ≠ [] := by
      intro he
      subst he
      have := hlast ch (by simp)
      simp [isWordChar, hs] at this
    rw [lineLenAfter_space_full ch tl l hs hl]
    exact ih (le_refl _) (by omega) hne (getLast?_suffix _ _ _ (List.suffix_cons ch tl) hlast)
  · intro ch tl l hs hl h0 ih h3 _ _ hlast
    have hne : tl ≠ [] := by
      intro he
      subst he
      have := hlast ch (by simp)
      simp [isWordChar, hs] at this
    rw [lineLenAfter_space ch tl l hs hl h0]
    exact ih (by omega) (by omega) hne (getLast?_suffix _ _ _ (List.suffix_cons ch tl) hlast)
  · intro ch tl _ _ h3 _ _ _
    omega
  · intro ch tl l hw ih h3 h79 _ hlast
    have hlen := gatherWord_word_length_le l (ch :: tl)
    have happ := gatherWord_append l (ch :: tl)
    rw [lineLenAfter_word ch tl l hw]
    by_cases he : (gatherWord l (ch :: tl) []).2 = []
    · have hw1 : 0 < (gatherWord l (ch :: tl) []).1.length := by
        rw [he, List.append_nil] at happ
        rw [happ]
        simp
      rw [he, lineLenAfter_nil]
      split_ifs <;> omega
    · have hl2 := getLast?_suffix _ _ _ (gatherWord_rest_suffix l (ch :: tl)) hlast
      split_ifs at ih ⊢
      · exact ih (by omega) (by omega) he hl2
      · exact ih (by omega) (by omega) he hl2

/-- C7, as the claim states it, fails: the two spaces of `"a  b"` are both
written, the output is not `"   a b\n"`. -/
theorem munge_description_whitespace_counterexample :
    munge_description "a  b".toList ≠ "   a b\n".toList ∧
    munge_description "a  b".toList = "   a  b\n".toList := by
  decide

/-- C7, amended: a run of whitespace that does not fall at a line boundary is
written unchanged, one character for each character of the run, behind the text
of what precedes it.  The run follows a word character, so it does not start a
line (the counter `lineLen` is above the indent when the run is read), and it
does not reach the margin (the counter plus the length of the run is at most
79). -/
theorem munge_description_whitespace_run (pre ws post : List Char)
    (hws : ∀ c ∈ ws, isspace c = true) (hne : ws ≠ [])
    (hpre : pre ≠ [] ∧ ∀ c ∈ pre.getLast?, isWordChar c = true)
    (hfit : lineLenAfter pre 3 + ws.length ≤ 79) :
    3 < lineLenAfter pre 3 ∧
    ∃ rest : List Char,
      munge_description (pre ++ ws ++ post) = (munge_description pre).dropLast ++ ws ++ rest := by
  have hmid := lineLenAfter_after_word pre 3 (le_refl _) (by omega) hpre.1 hpre.2
  have hhead : ∀ c ∈ (ws ++ post).head?, isspace c = true := by
    cases ws with
    | nil => exact absurd rfl hne
    | cons ch tl =>
      intro c hc
      simp at hc
      subst hc
      exact hws _ (by simp)
  have hD : ∀ c ∈ (ws ++ post).head?, c ≠ '$' :=
    fun c hc => isspace_ne_dollar c (hhead c hc)
  have hW : ∀ c ∈ (ws ++ post).head?, isWordChar c = false := by
    intro c hc
    simp [isWordChar, hhead c hc]
  have h1 := emitted_append (ws ++ post) hD pre 3 (Or.inl hW)
  have h2 := emitted_spaces ws post (lineLenAfter pre 3) hws (by omega) hfit
  refine ⟨hmid, emitted post (lineLenAfter pre 3 + ws.length) ++ eol, ?_⟩
  rw [munge_description_dropLast, munge_description_eq, List.append_assoc pre, h1, h2]
  simp only [List.append_assoc]

/-- Witness of the amended C7 on the input of the example, `"a  b"`. -/
theorem munge_description_whitespace_run_witness :
    ((∀ c ∈ "  ".toList, isspace c = true) ∧ "  ".toList ≠ [] ∧
      ("a".toList ≠ [] ∧ ∀ c ∈ "a".toList.getLast?, isWordChar c = true) ∧
      lineLenAfter "a".toList 3 + "  ".toList.length ≤ 79) ∧
    (3 < lineLenAfter "a".toList 3 ∧
      ∃ rest : List Char,
        munge_description ("a".toList ++ "  ".toList ++ "b".toList) =
          (munge_description "a".toList).dropLast ++ "  ".toList ++ rest) ∧
    munge_description ("a".toList ++ "  ".toList ++ "b".toList) = "   a  b\n".toList :=
  ⟨⟨by decide, by decide, by decide, by decide⟩,
    munge_description_whitespace_run "a".toList "  ".toList "b".toList
      (by decide) (by decide) (by decide) (by decide),
    by decide⟩

/-! ## The section table -/

theorem dump_handlers_length (clua_bindings : Bool) : (dump_handlers clua_bindings).length = 20 :=
  rfl

/-- A name that is not in the table is stopped by the last entry. -/
theorem dump_section_scan_unlisted (clua_bindings : Bool) (sec : String)
    (h : sec ∉ static_names) :
    dump_section_scan (dump_handlers clua_bindings) sec 0 =
      some (19, if clua_bindings then some Handler.sdump_lua else none) := by
  simp only [static_names, List.mem_cons, List.mem_singleton, not_or, List.not_mem_nil,
    not_false_eq_true, and_true] at h
  obtain ⟨h1, h2, h3, h4, h5, h6, h7, h8, h9, h10, h11, h12, h13, h14, h15, h16, h17, h18, h19⟩ := h
  simp [dump_section_scan, dump_handlers, Ne.symm h1, Ne.symm h2, Ne.symm h3, Ne.symm h4,
    Ne.symm h5, Ne.symm h6, Ne.symm h7, Ne.symm h8, Ne.symm h9, Ne.symm h10, Ne.symm h11,
    Ne.symm h12, Ne.symm h13, Ne.symm h14, Ne.symm h15, Ne.symm h16, Ne.symm h17, Ne.symm h18,
    Ne.symm h19]

/-- A name of the table is stopped by its own entry. -/
theorem dump_section_scan_listed (clua_bindings : Bool) (i : Nat) (hi : i < 19) :
    ∃ name h, (dump_handlers clua_bindings)[i]? = some { name := some name, handler := some h } ∧
      static_names[i]? = some name ∧
      dump_section_scan (dump_handlers clua_bindings) name 0 = some (i, some h) := by
  cases clua_bindings <;> interval_cases i <;> exact ⟨_, _, rfl, rfl, by decide⟩

theorem dump_section_scan_entry (clua_bindings : Bool) (i : Nat) (name : String) (h : Handler)
    (he : (dump_handlers clua_bindings)[i]? = some { name := some name, handler := some h }) :
    dump_section_scan (dump_handlers clua_bindings) name 0 = some (i, some h) := by
  have hi : i < 20 := by
    by_contra hcon
    rw [List.getElem?_eq_none (by rw [dump_handlers_length]; omega)] at he
    exact absurd he (by simp)
  cases clua_bindings <;> interval_cases i <;>
    simp only [dump_handlers, List.getElem?_cons_zero, List.getElem?_cons_succ, Option.some.injEq,
      dump_section_handler.mk.injEq, reduceCtorEq, and_false, false_and, Bool.false_eq_true,
      if_false, if_true] at he <;>
    (obtain ⟨rfl, rfl⟩ := he; decide)

theorem dump_section_unlisted {W : Type} (env : Env W) (st : DumpState W)
    (h : st.par.section_name ∉ static_names) :
    dump_section env true st = call_handler env Handler.sdump_lua st ∧
    dump_section env false st = st := by
  unfold dump_section
  rw [dump_section_scan_unlisted true _ h, dump_section_scan_unlisted false _ h]
  exact ⟨rfl, rfl⟩

theorem dump_section_listed {W : Type} (env : Env W) (clua_bindings : Bool) (st : DumpState W)
    (i : Nat) (h : Handler)
    (he : (dump_handlers clua_bindings)[i]? =
      some { name := some st.par.section_name, handler := some h }) :
    dump_section env clua_bindings st = call_handler env h st := by
  unfold dump_section
  rw [dump_section_scan_entry clua_bindings i _ h he]

/-! ## C8: what `dump_section` calls -/

/-- C8: the scan of `dump_section` stops at an index inside the table of 20
entries.  For a name that is none of the 19 names of the table, it calls the
wildcard handler `sdump_lua`, once, on `par` with that name in `par.section`,
and nothing else; in a build without `CLUA_BINDINGS` it calls nothing and leaves
the state as it is.  For a name that an entry of the table carries, it calls the
handler of that entry, once, and nothing else. -/
theorem dump_section_dispatch {W : Type} (env : Env W) (clua_bindings : Bool)
    (st : DumpState W) :
    (∃ i h, dump_section_scan (dump_handlers clua_bindings) st.par.section_name 0 = some (i, h) ∧
      i < (dump_handlers clua_bindings).length ∧ (dump_handlers clua_bindings).length = 20) ∧
    (st.par.section_name ∉ static_names →
      dump_section env true st = call_handler env Handler.sdump_lua st ∧
      (dump_section env true st).calls = st.calls ++ [(Handler.sdump_lua, st.par.section_name)] ∧
      (dump_section env true st).par = (sdump_lua env st.world st.par).1 ∧
      dump_section env false st = st) ∧
    (∀ (i : Nat) (h : Handler), (dump_handlers clua_bindings)[i]? =
        some (dump_section_handler.mk (some st.par.section_name) (some h)) →
      dump_section env clua_bindings st = call_handler env h st ∧
      (dump_section env clua_bindings st).calls = st.calls ++ [(h, st.par.section_name)]) := by
  refine ⟨?_, ?_, ?_⟩
  · by_cases hmem : st.par.section_name ∈ static_names
    · obtain ⟨i, hi, hget⟩ := List.mem_iff_getElem.mp hmem
      have hi19 : i < 19 := hi
      obtain ⟨name, h, he, hn, _⟩ := dump_section_scan_listed clua_bindings i hi19
      have hname : name = st.par.section_name := by
        rw [List.getElem?_eq_getElem hi, hget] at hn
        exact (Option.some.inj hn).symm
      subst hname
      exact ⟨i, some h, dump_section_scan_entry clua_bindings i _ h he,
        by rw [dump_handlers_length]; omega, dump_handlers_length _⟩
    · exact ⟨19, _, dump_section_scan_unlisted clua_bindings _ hmem,
        by rw [dump_handlers_length]; omega, dump_handlers_length _⟩
  · intro h
    obtain ⟨h1, h2⟩ := dump_section_unlisted env st h
    exact ⟨h1, by rw [h1]; rfl, by rw [h1]; rfl, h2⟩
  · intro i h he
    have h1 := dump_section_listed env clua_bindings st i h he
    exact ⟨h1, by rw [h1]; rfl⟩

/-- Witness of C8: `"Stats"` is not the entry `"stats"` and goes to the wildcard,
`"stats"` goes to `sdump_stats`. -/
theorem dump_section_dispatch_witness :
    "Stats" ∉ static_names ∧
    (dump_section sampleEnvError true (sampleState [] "Stats")).calls =
      [(Handler.sdump_lua, "Stats")] ∧
    (dump_section sampleEnvError false (sampleState [] "Stats")).par.text = [] ∧
    (dump_section sampleEnvError false (sampleState [] "Stats")).calls = [] ∧
    (dump_section sampleEnvError true (sampleState [] "stats")).calls =
      [(Handler.sdump_stats, "stats")] :=
  ⟨by decide,
    ((dump_section_dispatch sampleEnvError true (sampleState [] "Stats")).2.1 (by decide)).2.1,
    by rw [((dump_section_dispatch sampleEnvError true (sampleState [] "Stats")).2.1
      (by decide)).2.2.2]; rfl,
    by rw [((dump_section_dispatch sampleEnvError true (sampleState [] "Stats")).2.1
      (by decide)).2.2.2]; rfl,
    ((dump_section_dispatch sampleEnvError true (sampleState [] "stats")).2.2 1
      Handler.sdump_stats rfl).2⟩

/-! ## The loop of `dump_char` -/

theorem dump_char_loop_cons {W : Type} (env : Env W) (clua_bindings : Bool)
    (name : String) (order : List String) (st : DumpState W) :
    dump_char_loop env clua_bindings (name :: order) st =
      dump_char_loop env clua_bindings order
        (dump_section env clua_bindings
          { st with par := { st.par with section_name := name } }) := rfl

theorem dump_char_loop_append {W : Type} (env : Env W) (clua_bindings : Bool)
    (pre post : List String) (st : DumpState W) :
    dump_char_loop env clua_bindings (pre ++ post) st =
      dump_char_loop env clua_bindings post (dump_char_loop env clua_bindings pre st) := by
  induction pre generalizing st with
  | nil => rfl
  | cons name pre ih => rw [List.cons_append, dump_char_loop_cons, dump_char_loop_cons, ih]

theorem dump_section_newline {W : Type} (env : Env W) (clua_bindings : Bool) (st : DumpState W)
    (h : st.par.section_name = "") :
    dump_section env clua_bindings st =
      { world := st.world, par := appendText st.par ['\n'],
        calls := st.calls ++ [(Handler.sdump_newline, "")] } := by
  rw [dump_section_listed env clua_bindings st 17 Handler.sdump_newline (by rw [h]; cases clua_bindings <;> rfl)]
  simp only [call_handler, run_handler, sdump_newline, h]

theorem dump_section_separator {W : Type} (env : Env W) (clua_bindings : Bool) (st : DumpState W)
    (h : st.par.section_name = "-") :
    dump_section env clua_bindings st =
      { world := st.world, par := appendText st.par (List.replicate 79 '-' ++ ['\n']),
        calls := st.calls ++ [(Handler.sdump_separator, "-")] } := by
  rw [dump_section_listed env clua_bindings st 18 Handler.sdump_separator (by rw [h]; cases clua_bindings <;> rfl)]
  simp only [call_handler, run_handler, sdump_separator, h]

theorem dump_char_loop_rules {W : Type} (env : Env W) (clua_bindings : Bool)
    (order : List String) (st : DumpState W) (h : ∀ n ∈ order, n = "" ∨ n = "-") :
    (dump_char_loop env clua_bindings order st).par.text =
        st.par.text ++ (order.map rulePiece).flatten ∧
      (dump_char_loop env clua_bindings order st).par.show_prices = st.par.show_prices ∧
      (dump_char_loop env clua_bindings order st).par.full_id = st.par.full_id ∧
      (dump_char_loop env clua_bindings order st).par.se = st.par.se ∧
      (dump_char_loop env clua_bindings order st).world = st.world := by
  induction order generalizing st with
  | nil => simp [dump_char_loop]
  | cons name order ih =>
    have ih2 := fun st2 => ih st2 (fun n hn => h n (List.mem_cons_of_mem _ hn))
    rcases h name (by simp) with hn | hn
    · subst hn
      rw [dump_char_loop_cons, dump_section_newline env clua_bindings _ rfl]
      obtain ⟨h1, h2, h3, h4, h5⟩ := ih2
        { world := st.world,
          par := appendText { st.par with section_name := "" } ['\n'],
          calls := st.calls ++ [(Handler.sdump_newline, "")] }
      refine ⟨?_, h2, h3, h4, h5⟩
      rw [h1]
      simp [appendText, rulePiece]
    · subst hn
      rw [dump_char_loop_cons, dump_section_separator env clua_bindings _ rfl]
      obtain ⟨h1, h2, h3, h4, h5⟩ := ih2
        { world := st.world,
          par := appendText { st.par with section_name := "-" } (List.replicate 79 '-' ++ ['\n']),
          calls := st.calls ++ [(Handler.sdump_separator, "-")] }
      refine ⟨?_, h2, h3, h4, h5⟩
      rw [h1]
      simp [appendText, rulePiece]

/-! ## C9: the sections `""` and `"-"` -/

/-- C9: for every text gathered so far and every setting of the flags, the
section `""` adds exactly one newline and the section `"-"` adds exactly 79
characters `-` and a newline; the earlier text, the flags and the game are left
as they are.  So the text that the loop of `dump_char` builds from an order of
sections `""` and `"-"` is the earlier text followed by those pieces in order,
and the order `["", "-", ""]` gives a newline, 79 dashes and two newlines. -/
theorem dump_section_rules {W : Type} (env : Env W) (clua_bindings : Bool) (st : DumpState W) :
    (st.par.section_name = "" →
      dump_section env clua_bindings st =
        { world := st.world, par := { st.par with text := st.par.text ++ ['\n'] },
          calls := st.calls ++ [(Handler.sdump_newline, "")] }) ∧
    (st.par.section_name = "-" →
      dump_section env clua_bindings st =
        { world := st.world,
          par := { st.par with text := st.par.text ++ (List.replicate 79 '-' ++ ['\n']) },
          calls := st.calls ++ [(Handler.sdump_separator, "-")] }) ∧
    (∀ order : List String, (∀ n ∈ order, n = "" ∨ n = "-") →
      (dump_char_loop env clua_bindings order st).par.text =
          st.par.text ++ (order.map rulePiece).flatten ∧
        (dump_char_loop env clua_bindings order st).par.show_prices = st.par.show_prices ∧
        (dump_char_loop env clua_bindings order st).par.full_id = st.par.full_id ∧
        (dump_char_loop env clua_bindings order st).par.se = st.par.se) ∧
    (∀ (show_prices full_id : Bool) (se : Option scorefile_entry),
      (dump_char env clua_bindings st.world ["", "-", ""] show_prices full_id se).par.text =
        ['\n'] ++ List.replicate 79 '-' ++ ['\n'] ++ ['\n']) := by
  refine ⟨?_, ?_, ?_, ?_⟩
  · intro h
    exact dump_section_newline env clua_bindings st h
  · intro h
    exact dump_section_separator env clua_bindings st h
  · intro order h
    obtain ⟨h1, h2, h3, h4, _⟩ := dump_char_loop_rules env clua_bindings order st h
    exact ⟨h1, h2, h3, h4⟩
  · intro sp fid se
    unfold dump_char
    rw [(dump_char_loop_rules env clua_bindings ["", "-", ""] _ (by decide)).1]
    simp [rulePiece]

/-- Witness of C9: on a text `"x"`, the section `""` gives `"x\n"`, and the order
`["", "-", ""]` gives the text of the example. -/
theorem dump_section_rules_witness :
    (sampleState "x".toList "").par.section_name = "" ∧
    (dump_section sampleEnvError true (sampleState "x".toList "")).par.text = "x\n".toList ∧
    (dump_section sampleEnvError true (sampleState "x".toList "")).par.full_id = true ∧
    (dump_char sampleEnvError true () ["", "-", ""] false false none).par.text =
      ['\n'] ++ List.replicate 79 '-' ++ ['\n'] ++ ['\n'] :=
  ⟨rfl,
    by rw [(dump_section_rules sampleEnvError true (sampleState "x".toList "")).1 rfl]; rfl,
    by rw [(dump_section_rules sampleEnvError true (sampleState "x".toList "")).1 rfl]; rfl,
    (dump_section_rules sampleEnvError true (sampleState [] "")).2.2.2 false false none⟩

/-! ## Handlers only add text -/

theorem appendText_appendText (par : dump_params) (a b : List Char) :
    appendText (appendText par a) b = appendText par (a ++ b) := by
  simp [appendText]

theorem run_handler_appends {W : Type} (env : Env W) (h : Handler) (w : W) (par : dump_params) :
    ∃ added, (run_handler env h w par).1 = appendText par added := by
  cases h
  case sdump_newline => exact ⟨_, rfl⟩
  case sdump_separator => exact ⟨_, rfl⟩
  case sdump_lua =>
    simp only [run_handler, sdump_lua]
    split_ifs
    · exact ⟨_, rfl⟩
    · exact ⟨_, rfl⟩
  case sdump_misc =>
    simp only [run_handler, sdump_misc, sdump_ext, appendText_appendText]
    exact ⟨_, rfl⟩
  all_goals exact ⟨_, rfl⟩

theorem dump_section_text_grows {W : Type} (env : Env W) (clua_bindings : Bool)
    (st : DumpState W) :
    ∃ added, (dump_section env clua_bindings st).par.text = st.par.text ++ added := by
  unfold dump_section
  split
  · rename_i h _
    obtain ⟨added, ha⟩ := run_handler_appends env h st.world st.par
    exact ⟨added, by simp only [call_handler, ha, appendText]⟩
  · exact ⟨[], by simp⟩
  · exact ⟨[], by simp⟩

theorem dump_char_loop_text_grows {W : Type} (env : Env W) (clua_bindings : Bool)
    (order : List String) (st : DumpState W) :
    ∃ added, (dump_char_loop env clua_bindings order st).par.text = st.par.text ++ added := by
  induction order generalizing st with
  | nil => exact ⟨[], by simp [dump_char_loop]⟩
  | cons name order ih =>
    rw [dump_char_loop_cons]
    obtain ⟨a1, h1⟩ := dump_section_text_grows env clua_bindings
      { st with par := { st.par with section_name := name } }
    obtain ⟨a2, h2⟩ := ih (dump_section env clua_bindings
      { st with par := { st.par with section_name := name } })
    exact ⟨a1 ++ a2, by rw [h2, h1]; simp⟩

/-! ## C10: a failing Lua section -/

/-- C10, as the claim states it, fails: when `callfn` reports failure without an
error message, `sdump_lua` adds no diagnostic line; here it adds nothing. -/
theorem sdump_lua_silent_counterexample :
    (sampleEnvSilent.callfn () "bad").1.ok = false ∧
    (dump_section sampleEnvSilent true (sampleState "x".toList "bad")).calls =
      [(Handler.sdump_lua, "bad")] ∧
    (dump_section sampleEnvSilent true (sampleState "x".toList "bad")).par.text = "x".toList ∧
    (dump_section sampleEnvSilent true (sampleState "x".toList "bad")).par.text ≠
      "x".toList ++ "Lua dump error: ".toList ++
        (sampleEnvSilent.callfn () "bad").1.error ++ ['\n'] := by
  have h := (dump_section_unlisted sampleEnvSilent (sampleState "x".toList "bad")
    (by decide)).1
  rw [h]
  decide

/-- C10, amended: when `callfn` reports failure for a section name that is not
in the table and leaves a non-empty error message, `sdump_lua` adds the line
`"Lua dump error: "`, the message, a newline, and the loop of `dump_char` goes
on: it dispatches the later sections of the order, in order, from the state
left by the failing one, so the report is the earlier text, the diagnostic line
and then what the later sections add. -/
theorem sdump_lua_error_reported {W : Type} (env : Env W) (pre post : List String)
    (name : String) (st : DumpState W)
    (hname : name ∉ static_names)
    (hfail : (env.callfn (dump_char_loop env true pre st).world name).1.ok = false)
    (herr : (env.callfn (dump_char_loop env true pre st).world name).1.error ≠ []) :
    (sdump_lua env (dump_char_loop env true pre st).world
        { (dump_char_loop env true pre st).par with section_name := name }).1.text =
      (dump_char_loop env true pre st).par.text ++ ("Lua dump error: ".toList ++
        (env.callfn (dump_char_loop env true pre st).world name).1.error ++ ['\n']) ∧
    dump_char_loop env true (pre ++ name :: post) st =
      dump_char_loop env true post
        { world := (env.callfn (dump_char_loop env true pre st).world name).2,
          par := { (dump_char_loop env true pre st).par with
            section_name := name,
            text := (dump_char_loop env true pre st).par.text ++ ("Lua dump error: ".toList ++
              (env.callfn (dump_char_loop env true pre st).world name).1.error ++ ['\n']) },
          calls := (dump_char_loop env true pre st).calls ++ [(Handler.sdump_lua, name)] } ∧
    ∃ later, (dump_char_loop env true (pre ++ name :: post) st).par.text =
      (dump_char_loop env true pre st).par.text ++ ("Lua dump error: ".toList ++
        (env.callfn (dump_char_loop env true pre st).world name).1.error ++ ['\n']) ++ later := by
  have hlua : sdump_lua env (dump_char_loop env true pre st).world
      { (dump_char_loop env true pre st).par with section_name := name } =
      (appendText { (dump_char_loop env true pre st).par with section_name := name }
        ("Lua dump error: ".toList ++
          (env.callfn (dump_char_loop env true pre st).world name).1.error ++ ['\n']),
        (env.callfn (dump_char_loop env true pre st).world name).2) := by
    simp only [sdump_lua]
    rw [if_pos ⟨hfail, herr⟩]
  have hloop : dump_char_loop env true (pre ++ name :: post) st =
      dump_char_loop env true post
        { world := (env.callfn (dump_char_loop env true pre st).world name).2,
          par := { (dump_char_loop env true pre st).par with
            section_name := name,
            text := (dump_char_loop env true pre st).par.text ++ ("Lua dump error: ".toList ++
              (env.callfn (dump_char_loop env true pre st).world name).1.error ++ ['\n']) },
          calls := (dump_char_loop env true pre st).calls ++ [(Handler.sdump_lua, name)] } := by
    rw [dump_char_loop_append, dump_char_loop_cons]
    have hd := (dump_section_unlisted env
      { dump_char_loop env true pre st with
        par := { (dump_char_loop env true pre st).par with section_name := name } } hname).1
    rw [hd]
    simp only [call_handler, run_handler, hlua, appendText]
  refine ⟨by rw [hlua]; rfl, hloop, ?_⟩
  rw [hloop]
  obtain ⟨later, hl⟩ := dump_char_loop_text_grows env true post
    { world := (env.callfn (dump_char_loop env true pre st).world name).2,
      par := { (dump_char_loop env true pre st).par with
        section_name := name,
        text := (dump_char_loop env true pre st).par.text ++ ("Lua dump error: ".toList ++
          (env.callfn (dump_char_loop env true pre st).world name).1.error ++ ['\n']) },
      calls := (dump_char_loop env true pre st).calls ++ [(Handler.sdump_lua, name)] }
  exact ⟨later, hl⟩

/-- Witness of the amended C10: in the order `["", "bad", "-"]` the section
`"bad"` fails with the message `boom`; the report holds the newline, the
diagnostic line and the rule of the section after it. -/
theorem sdump_lua_error_reported_witness :
    ("bad" ∉ static_names ∧
      (sampleEnvError.callfn
        (dump_char_loop sampleEnvError true [""] (sampleState [] "")).world "bad").1.ok = false ∧
      (sampleEnvError.callfn
        (dump_char_loop sampleEnvError true [""] (sampleState [] "")).world "bad").1.error ≠ []) ∧
    (∃ later, (dump_char_loop sampleEnvError true ([""] ++ "bad" :: ["-"])
        (sampleState [] "")).par.text =
      (dump_char_loop sampleEnvError true [""] (sampleState [] "")).par.text ++
        ("Lua dump error: ".toList ++
          (sampleEnvError.callfn
            (dump_char_loop sampleEnvError true [""] (sampleState [] "")).world "bad").1.error ++
          ['\n']) ++ later) ∧
    (dump_char sampleEnvError true () ["", "bad", "-"] false true none).par.text =
      "\nLua dump error: boom\n".toList ++ List.replicate 79 '-' ++ ['\n'] :=
  ⟨⟨by decide, rfl, by decide⟩,
    (sdump_lua_error_reported sampleEnvError [""] ["-"] "bad" (sampleState [] "")
      (by decide) rfl (by decide)).2.2,
    by decide⟩

/-! ## C13: the word-fit test is strict -/

/-- C13: for non-empty words `u` and `w`, the input `u`, one space, `w` is laid
out on two lines when the single line would be 79 characters long
(`3 + |u| + 1 + |w| = 79`): the indent, `u` and the space on the first, the
indent and `w` on the second.  When the single line is 78 characters long, it
is the output. -/
theorem munge_description_strict_fit (u w : List Char)
    (hu : ∀ c ∈ u, isWordChar c = true) (hw : ∀ c ∈ w, isWordChar c = true)
    (hune : u ≠ []) (hwne : w ≠ []) :
    (3 + u.length + 1 + w.length = 79 →
      munge_description (u ++ [' '] ++ w) =
        indent ++ u ++ [' '] ++ eol ++ indent ++ w ++ eol) ∧
    (3 + u.length + 1 + w.length = 78 →
      munge_description (u ++ [' '] ++ w) = indent ++ u ++ [' '] ++ w ++ eol) := by
  have hwl : 0 < w.length := List.length_pos.mpr hwne
  have hsp : ∀ c ∈ ([' '] ++ w).head?, isWordChar c = false := by
    intro c hc
    simp at hc
    subst hc
    decide
  have hnil : ∀ c ∈ ([] : List Char).head?, isWordChar c = false := by
    intro c hc
    simp at hc
  have key : ∀ n, (n = 78 ∨ n = 79) → 3 + u.length + 1 + w.length = n →
      emitted (u ++ ([' '] ++ w)) 3 =
        u ++ ' ' :: (if 3 + u.length + 1 + w.length < 79 then w ++ []
          else eol ++ indent ++ w ++ []) := by
    intro n hn hlen
    rw [emitted_word_fit u ([' '] ++ w) 3 hu hune hsp (by omega)]
    rw [List.singleton_append, emitted_space ' ' w (3 + u.length) (by decide) (by omega) (by omega)]
    have hww := emitted_whole_word w [] (3 + u.length + 1) hw hwne (by omega) hnil
      (by omega) (by omega)
    rw [List.append_nil] at hww
    rw [hww]
    split_ifs <;> rw [emitted_nil]
  constructor
  · intro hlen
    rw [munge_description_eq, List.append_assoc u, key 79 (Or.inr rfl) hlen, if_neg (by omega)]
    simp only [List.append_assoc, List.append_nil, List.singleton_append, List.cons_append,
      List.nil_append]
  · intro hlen
    rw [munge_description_eq, List.append_assoc u, key 78 (Or.inl rfl) hlen, if_pos (by omega)]
    simp only [List.append_assoc, List.append_nil, List.singleton_append, List.cons_append,
      List.nil_append]

set_option maxRecDepth 100000 in
/-- Witness of C13: words of 37 and 38 characters wrap, words of 37 and 37
characters share the line. -/
theorem munge_description_strict_fit_witness :
    ((∀ c ∈ List.replicate 37 'u', isWordChar c = true) ∧
      (∀ c ∈ List.replicate 38 'w', isWordChar c = true) ∧
      List.replicate 37 'u' ≠ [] ∧ List.replicate 38 'w' ≠ [] ∧
      3 + (List.replicate 37 'u').length + 1 + (List.replicate 38 'w').length = 79 ∧
      3 + (List.replicate 37 'u').length + 1 + (List.replicate 37 'w').length = 78) ∧
    munge_description (List.replicate 37 'u' ++ [' '] ++ List.replicate 38 'w') =
      indent ++ List.replicate 37 'u' ++ [' '] ++ eol ++ indent ++ List.replicate 38 'w' ++ eol ∧
    munge_description (List.replicate 37 'u' ++ [' '] ++ List.replicate 37 'w') =
      indent ++ List.replicate 37 'u' ++ [' '] ++ List.replicate 37 'w' ++ eol :=
  ⟨⟨by decide, by decide, by decide, by decide, by decide, by decide⟩,
    (munge_description_strict_fit (List.replicate 37 'u') (List.replicate 38 'w')
      (by decide) (by decide) (by decide) (by decide)).1 (by decide),
    (munge_description_strict_fit (List.replicate 37 'u') (List.replicate 37 'w')
      (by decide) (by decide) (by decide) (by decide)).2 (by decide)⟩

/-! ## C14: the characters of the words are kept -/

theorem filter_wordChar_skipDollars (l : List Char) :
    (skipDollars l).filter isWordChar = l.filter isWordChar := by
  induction l with
  | nil => rfl
  | cons c tl ih =>
    by_cases hc : c = '$'
    · subst hc
      simp only [skipDollars, if_true, ih]
      rw [List.filter_cons_of_neg (by decide)]
    · simp [skipDollars, hc]

theorem filter_notspace_word (w : List Char) (hw : ∀ c ∈ w, isWordChar c = true) :
    w.filter (fun c => !isspace c) = w ∧ w.filter isWordChar = w := by
  constructor
  · rw [List.filter_eq_self]
    intro c hc
    have := hw c hc
    simp only [isWordChar, Bool.and_eq_true] at this
    exact this.1
  · rw [List.filter_eq_self]
    exact hw

theorem filter_notspace_indent : indent.filter (fun c => !isspace c) = [] := by
  decide

theorem filter_notspace_eol : eol.filter (fun c => !isspace c) = [] := by
  decide

theorem isspace_not_wordChar (c : Char) (h : isspace c = true) : isWordChar c = false := by
  simp [isWordChar, h]

/-- What the loop writes holds the word characters of what it reads, in order,
and besides them only whitespace. -/
theorem emitted_filter (r : List Char) (l : Nat) :
    (emitted r l).filter (fun c => !isspace c) = r.filter isWordChar := by
  refine emitted_induction
    (fun r l => (emitted r l).filter (fun c => !isspace c) = r.filter isWordChar)
    ?_ ?_ ?_ ?_ ?_ ?_ r l
  · intro l
    rw [emitted_nil]
    rfl
  · intro tl l ih
    rw [emitted_dollar, List.filter_append, List.filter_append, filter_notspace_eol,
      filter_notspace_indent, ih, filter_wordChar_skipDollars,
      List.filter_cons_of_neg (by decide)]
    rfl
  · intro ch tl l hs _ ih
    rw [emitted_space_full ch tl l hs (by assumption), List.filter_append, List.filter_append,
      filter_notspace_eol, filter_notspace_indent, ih,
      List.filter_cons_of_neg (by simp [isspace_not_wordChar ch hs])]
    rfl
  · intro ch tl l hs hl h0 ih
    rw [emitted_space ch tl l hs hl h0, List.filter_cons_of_neg (by simp [hs]), ih,
      List.filter_cons_of_neg (by simp [isspace_not_wordChar ch hs])]
  · intro ch tl hs ih
    rw [emitted_space_zero ch tl hs, ih,
      List.filter_cons_of_neg (by simp [isspace_not_wordChar ch hs])]
  · intro ch tl l hw ih
    have happ := gatherWord_append l (ch :: tl)
    have hf := filter_notspace_word _ (gatherWord_word_chars l (ch :: tl))
    have hsplit : (ch :: tl).filter isWordChar =
        (gatherWord l (ch :: tl) []).1 ++ (gatherWord l (ch :: tl) []).2.filter isWordChar := by
      conv_lhs => rw [← happ]
      rw [List.filter_append, hf.2]
    rw [emitted_word ch tl l hw, hsplit]
    split_ifs at ih ⊢
    · rw [List.filter_append, List.filter_append, List.filter_append, filter_notspace_eol,
        filter_notspace_indent, hf.1, ih]
      rfl
    · rw [List.filter_append, hf.1, ih]

/-- C14: the output of `munge_description` with its whitespace deleted is the
input with its whitespace and its `$` deleted: no other character is lost,
added, repeated or moved. -/
theorem munge_description_keeps_characters (inStr : List Char) :
    (munge_description inStr).filter (fun c => !isspace c) =
      inStr.filter (fun c => !isspace c && c != '$') := by
  rw [munge_description_eq, List.filter_append, List.filter_append, filter_notspace_eol,
    filter_notspace_indent, emitted_filter]
  simp only [List.nil_append, List.append_nil]
  rfl

/-! ## C11: the loop ends -/

/-- A pass keeps the counter between the indent and the margin. -/
theorem pass_lineLen_bounds (st : MungeState) (hne : st.rest ≠ [])
    (h3 : 3 ≤ st.lineLen) (h79 : st.lineLen ≤ 79) :
    3 ≤ (pass st).lineLen ∧ (pass st).lineLen ≤ 79 := by
  obtain ⟨r, l, out⟩ := st
  cases r with
  | nil => exact absurd rfl hne
  | cons ch tl =>
    simp only at h3 h79
    rcases char_cases ch with hd | hs | hw
    · subst hd
      rw [pass_dollar]
      exact ⟨le_refl _, by simp only; omega⟩
    · by_cases hl : 79 ≤ l
      · rw [pass_space_full ch tl l out hs hl]
        exact ⟨le_refl _, by simp only; omega⟩
      · rw [pass_space ch tl l out hs (by omega) (by omega)]
        exact ⟨by simp only; omega, by simp only; omega⟩
    · have hlen := gatherWord_word_length_le l (ch :: tl)
      rw [pass_word ch tl l out hw]
      split_ifs
      · exact ⟨by simp only; omega, by simp only; omega⟩
      · exact ⟨by simp only; omega, by simp only; omega⟩

/-- A pass consumes a character, unless a word starts on a full line: then it
consumes none, resets the counter, and the pass after it consumes one. -/
theorem pass_progress (st : MungeState) (hne : st.rest ≠ []) (h79 : st.lineLen ≤ 79) :
    (pass st).rest.length < st.rest.length ∨
    (st.lineLen = 79 ∧ (∀ c ∈ st.rest.head?, isWordChar c = true) ∧
      (pass st).rest = st.rest ∧ (pass st).lineLen = 3 ∧
      (pass (pass st)).rest.length < st.rest.length) := by
  obtain ⟨r, l, out⟩ := st
  cases r with
  | nil => exact absurd rfl hne
  | cons ch tl =>
    simp only at h79
    rcases char_cases ch with hd | hs | hw
    · subst hd
      left
      rw [pass_dollar]
      have := skipDollars_length_le tl
      simp only [List.length_cons]
      omega
    · left
      by_cases hl : 79 ≤ l
      · rw [pass_space_full ch tl l out hs hl]
        simp
      · by_cases h0 : 0 < l
        · rw [pass_space ch tl l out hs (by omega) h0]
          simp
        · have hz : l = 0 := by omega
          subst hz
          rw [pass_space_zero ch tl out hs]
          simp
    · by_cases hl : l < 79
      · left
        have h1 := gatherWord_rest_length_lt l ch tl hl hw
        rw [pass_word ch tl l out hw]
        split_ifs <;> exact h1
      · right
        have hl79 : l = 79 := by omega
        subst hl79
        have hfull := gatherWord_full 79 (ch :: tl) (le_refl _)
        have hp : pass { rest := ch :: tl, lineLen := 79, outStr := out } =
            { rest := ch :: tl, lineLen := 3, outStr := out ++ eol ++ indent ++ [] } := by
          rw [pass_word ch tl 79 out hw, hfull]
          simp
        have h1 := gatherWord_rest_length_lt 3 ch tl (by omega) hw
        refine ⟨rfl, ?_, ?_, ?_, ?_⟩
        · intro c hc
          simp at hc
          subst hc
          exact hw
        · rw [hp]
        · rw [hp]
        · rw [hp, pass_word ch tl 3 _ hw]
          split_ifs <;> exact h1

theorem charAt_lt (inStr : List Char) (pos : Nat) (h : pos < inStr.length) :
    charAt inStr pos = some (inStr.get ⟨pos, h⟩) := by
  simp [charAt, h]

theorem charAt_length (inStr : List Char) : charAt inStr inStr.length = some '\x00' := by
  simp [charAt]

/-- The look-ahead behind a `$` at index `i` stops at an index that is at most
the length of the string, where the rest is what `skipDollars` leaves. -/
theorem lookAhead_in_string (inStr : List Char) :
    ∀ n i, n = inStr.length - i → i < inStr.length →
      ∃ j, lookAhead inStr n i = some j ∧ j ≤ inStr.length ∧
        inStr.drop j = skipDollars (inStr.drop (i + 1)) := by
  intro n
  induction n with
  | zero =>
    intro i hn hi
    omega
  | succ n ih =>
    intro i hn hi
    by_cases hlast : i + 1 = inStr.length
    · refine ⟨i + 1, ?_, by omega, ?_⟩
      · simp only [lookAhead]
        rw [hlast, charAt_length]
        simp
      · rw [hlast, List.drop_length]
        rfl
    · have hlt : i + 1 < inStr.length := by omega
      have hdrop : inStr.drop (i + 1) = inStr.get ⟨i + 1, hlt⟩ :: inStr.drop (i + 1 + 1) := by
        simp
      by_cases hc : inStr.get ⟨i + 1, hlt⟩ = '$'
      · obtain ⟨j, hj1, hj2, hj3⟩ := ih (i + 1) (by omega) hlt
        refine ⟨j, ?_, hj2, ?_⟩
        · simp only [lookAhead]
          rw [charAt_lt inStr (i + 1) hlt]
          simp only [hc, if_true]
          exact hj1
        · rw [hj3, hdrop, hc]
          simp [skipDollars]
      · refine ⟨i + 1, ?_, by omega, ?_⟩
        · simp only [lookAhead]
          rw [charAt_lt inStr (i + 1) hlt]
          simp only [hc, if_false]
        · rw [hdrop]
          simp only [skipDollars]
          rw [if_neg hc]

/-- C11: `munge_description` is total.  With the passes that it is given, the
loop has left through its test, and more passes change nothing; the empty
string gives the line `"   \n"`.  Each pass on a state of the loop consumes at
least one character, or a word starts on a full line (`lineLen = 79`): then the
pass consumes none and sets `lineLen` to 3, and the pass after it consumes one.
The look-ahead `while (inStr[++i] == '$');` reads no index above
`inStr.length()`, where a `const std::string` holds `'\0'`. -/
theorem munge_description_total (inStr : List Char) :
    (mungeLoop (2 * inStr.length + 1)
      { rest := inStr, lineLen := kIndent, outStr := indent }).rest = [] ∧
    (∀ fuel, 2 * inStr.length + 1 ≤ fuel →
      mungeLoop fuel { rest := inStr, lineLen := kIndent, outStr := indent } =
        mungeLoop (2 * inStr.length + 1)
          { rest := inStr, lineLen := kIndent, outStr := indent }) ∧
    munge_description [] = "   \n".toList ∧
    (∀ st : MungeState, st.rest ≠ [] → 3 ≤ st.lineLen → st.lineLen ≤ 79 →
      (3 ≤ (pass st).lineLen ∧ (pass st).lineLen ≤ 79) ∧
      ((pass st).rest.length < st.rest.length ∨
        (st.lineLen = 79 ∧ (∀ c ∈ st.rest.head?, isWordChar c = true) ∧
          (pass st).rest = st.rest ∧ (pass st).lineLen = 3 ∧
          (pass (pass st)).rest.length < st.rest.length))) ∧
    (∀ i, i < inStr.length →
      ∃ j, lookAhead inStr (inStr.length - i) i = some j ∧ j ≤ inStr.length ∧
        inStr.drop j = skipDollars (inStr.drop (i + 1))) := by
  have hb : passBound { rest := inStr, lineLen := kIndent, outStr := indent } ≤
      2 * inStr.length + 1 := passBound_le _ _ _
  refine ⟨mungeLoop_rest _ _ hb, ?_, by decide, ?_, ?_⟩
  · intro fuel hf
    exact mungeLoop_fuel _ _ _ (le_trans hb hf) hb
  · intro st hne h3 h79
    exact ⟨pass_lineLen_bounds st hne h3 h79, pass_progress st hne h79⟩
  · intro i hi
    exact lookAhead_in_string inStr _ i rfl hi

/-- Witness of C11 on `"ab $$"`: the loop ends, and the look-ahead behind the
`$` at index 3 stops at index 5, the length; on a full line, a pass before a
word consumes nothing and the next one does. -/
theorem munge_description_total_witness :
    (mungeLoop (2 * "ab $$".toList.length + 1)
      { rest := "ab $$".toList, lineLen := kIndent, outStr := indent }).rest = [] ∧
    munge_description "ab $$".toList = "   ab \n   \n".toList ∧
    (∃ j, lookAhead "ab $$".toList ("ab $$".toList.length - 3) 3 = some j ∧
      j ≤ "ab $$".toList.length ∧
      "ab $$".toList.drop j = skipDollars ("ab $$".toList.drop (3 + 1))) ∧
    lookAhead "ab $$".toList 2 3 = some 5 ∧
    pass { rest := "x".toList, lineLen := 79, outStr := [] } =
      { rest := "x".toList, lineLen := 3, outStr := "\n   ".toList } :=
  ⟨(munge_description_total "ab $$".toList).1, by decide,
    (munge_description_total "ab $$".toList).2.2.2.2 3 (by decide), by decide, by decide⟩

/-! ## C12: laying out an output again -/

set_option maxRecDepth 100000 in
/-- C12 fails on the code.  Two words of 37 characters with a space between
them give one line of 78 characters.  When this output, its line breaks
replaced by `$`, is laid out again, the three spaces of its indent stand at the
start of a line and are written behind the new indent: the test `lineLen > 0`
that guards the copy never fails, as in C6.  The line is three characters
longer, the second word no longer fits, and the line is broken in two: with
the spaces at the start of the lines left out, the first output has the one
line of both words, the second has a line for each word. -/
theorem munge_description_relayout_breaks_line :
    physLines (munge_description (List.replicate 37 'u' ++ [' '] ++ List.replicate 37 'w')) =
      [indent ++ List.replicate 37 'u' ++ [' '] ++ List.replicate 37 'w', []] ∧
    physLines (munge_description (dollarize
        (munge_description (List.replicate 37 'u' ++ [' '] ++ List.replicate 37 'w')))) =
      [indent ++ indent ++ List.replicate 37 'u' ++ [' '], indent ++ List.replicate 37 'w',
        indent, []] ∧
    ((physLines (munge_description
        (List.replicate 37 'u' ++ [' '] ++ List.replicate 37 'w'))).map stripIndent).filter
        (fun line => !line.isEmpty) =
      [List.replicate 37 'u' ++ [' '] ++ List.replicate 37 'w'] ∧
    ((physLines (munge_description (dollarize
        (munge_description (List.replicate 37 'u' ++ [' '] ++ List.replicate 37 'w'))))).map
        stripIndent).filter (fun line => !line.isEmpty) =
      [List.replicate 37 'u' ++ [' '], List.replicate 37 'w'] := by
  decide

end Chardump
